import Mathlib

/-!
Verification of the xcode_log_parser parsing pipeline (src/lib.rs).

The Rust crate parses one diagnostic line in four stages, each a regex
search plus a constructor:

* `LogFile::new_from_regex`     with pattern  ^(.+?):(.*)?
* `CodeFragment::new_from_regex` with pattern (\d+):(\d+):(.*)?
* `Message::new_from_regex`     with pattern  \s?(.+?):\s?(.+)
* `MyWarning::new_from_regex`   with pattern  s#(.+?)#s(.+)? followed by
  `serde_json::from_str::<MyWarning>` on capture group 1.

Each regex is embedded as a dedicated scan function over `List Char`
implementing the regex crate's leftmost-first matching semantics for that
pattern exactly: `.` matches any character except `'\n'`, lazy `+?` prefers
the shortest match and extends on failure of the rest of the pattern,
greedy `?` prefers to consume one character and backs off on failure, and a
failed match at a start position moves the start one character to the
right.  `\d` is modelled by ASCII `Char.isDigit` and `\s` by the Unicode
White_Space set (the claims under study only exercise ASCII inputs).
`usize` parsing is modelled as 64-bit.  `serde_json` deserialisation of
`MyWarning` is modelled by an executable JSON parser (`decodeMyWarning`)
for the JSON grammar with serde's struct conventions: unknown fields are
skipped, duplicate known fields and missing required fields are errors,
and trailing non-whitespace input is an error.
-/

/-- The characters matched by `.` in the regex crate are all characters
except the newline.  `takeLine l` is the value of a greedy trailing `(.*)`
or `(.+)` group starting at `l`. -/
def takeLine (l : List Char) : List Char := l.takeWhile (fun c => c ≠ '\n')

/-- The Unicode White_Space set, the characters matched by `\s`. -/
def isSpaceRx (c : Char) : Bool :=
  let n := c.toNat
  n = 9 || n = 10 || n = 11 || n = 12 || n = 13 || n = 32 || n = 133 ||
  n = 160 || n = 0x1680 || (0x2000 ≤ n && n ≤ 0x200A) || n = 0x2028 ||
  n = 0x2029 || n = 0x202F || n = 0x205F || n = 0x3000

/-- The left brace character, written by code point. -/
def lb : Char := '\x7b'

/-- The right brace character, written by code point. -/
def rb : Char := '\x7d'

/-! ## Stage 1: `LogFile::regex_value`, the pattern `^(.+?):(.*)?`.

The pattern is anchored at the start.  The lazy `(.+?)` takes the shortest
non-empty newline-free run followed by a literal colon, so group 1 is the
text before the first colon occurring at index ≥ 1; there is no constraint
after the colon, so no further backtracking happens.  The optional greedy
`(.*)?` always participates, matching the rest of the line, so
`cap.get(2)` is always `Some` on a successful match. -/

/-- Scan for the first colon, the preceding character(s) having been
consumed into the accumulating group 1.  Aborts on a newline, which `.`
cannot match. -/
def pathRest : List Char → Option (List Char × List Char)
  | [] => none
  | c :: r =>
    if c = ':' then some ([], takeLine r)
    else if c = '\n' then none
    else
      match pathRest r with
      | some (p, rest) => some (c :: p, rest)
      | none => none

/-- `Self::regex_value().captures(h)` for `LogFile`: group 1 and group 2 of
`^(.+?):(.*)?`.  Group 1 needs at least one character, so the first input
character is consumed unconditionally before the colon search begins. -/
def logFileCaptures : List Char → Option (List Char × List Char)
  | [] => none
  | c :: r =>
    if c = '\n' then none
    else
      match pathRest r with
      | some (p, rest) => some (c :: p, rest)
      | none => none

/-! ## Stage 2: `CodeFragment::regex_value`, the pattern `(\d+):(\d+):(.*)?`.

Unanchored.  At a given start, the greedy `(\d+)` must take the maximal
digit run (shortening it puts a digit in front of the required colon), so a
start matches exactly when the maximal digit run from it is non-empty and
is followed by `:`, another non-empty maximal digit run and another `:`.
On failure the start advances one character. -/

/-- Attempt the pattern `(\d+):(\d+):(.*)?` anchored at the current
position. -/
def tryPos (l : List Char) : Option (List Char × List Char × List Char) :=
  let d1 := l.takeWhile Char.isDigit
  let r1 := l.dropWhile Char.isDigit
  if d1.isEmpty then none
  else
    match r1 with
    | ':' :: r2 =>
      let d2 := r2.takeWhile Char.isDigit
      let r3 := r2.dropWhile Char.isDigit
      if d2.isEmpty then none
      else
        match r3 with
        | ':' :: r4 => some (d1, d2, takeLine r4)
        | _ => none
    | _ => none

/-- `Self::regex_value().captures(h)` for `CodeFragment`: groups 1-3 of
`(\d+):(\d+):(.*)?` under leftmost matching. -/
def codeFragCaptures : List Char → Option (List Char × List Char × List Char)
  | [] => none
  | c :: r =>
    match tryPos (c :: r) with
    | some x => some x
    | none => codeFragCaptures r

/-- The largest value of `usize`; the crate targets 64-bit platforms. -/
def USIZE_MAX : Nat := 2 ^ 64 - 1

/-- Numeric value of a decimal digit run. -/
def digitsToNat (l : List Char) : Nat :=
  l.foldl (fun a c => a * 10 + (c.toNat - 48)) 0

/-- `str::parse::<usize>()` on a candidate digit run: requires a non-empty
all-digit string whose value fits in the 64-bit word. -/
def parseUsize (l : List Char) : Option Nat :=
  if l ≠ [] ∧ l.all Char.isDigit ∧ digitsToNat l ≤ USIZE_MAX then
    some (digitsToNat l)
  else none

/-! ## Stage 3: `Message::regex_value`, the pattern `\s?(.+?):\s?(.+)`.

Unanchored.  At each start the greedy `\s?` first tries to consume one
whitespace character (with the whole rest of the pattern as continuation)
and falls back to consuming nothing; the lazy `(.+?)` tries each candidate
colon from the nearest one outward, aborting once a newline blocks it; the
second `\s?` likewise prefers consuming one whitespace provided the final
`(.+)` can still match at least one non-newline character. -/

/-- Match `\s?(.+)` after the keyword's colon, returning group 2. -/
def msgTail (l : List Char) : Option (List Char) :=
  match l with
  | [] => none
  | c :: r =>
    if isSpaceRx c then
      match r with
      | c2 :: _ =>
        if c2 = '\n' then (if c = '\n' then none else some (takeLine l))
        else some (takeLine r)
      | [] => if c = '\n' then none else some [c]
    else if c = '\n' then none else some (takeLine l)

/-- Match `(.+?):\s?(.+)` at the current position; `accRev` holds the
reversed part of group 1 already consumed.  A colon can serve as the
literal colon only when group 1 is non-empty; when the continuation after a
candidate colon fails, the colon is absorbed into the lazy group 1. -/
def msgCoreGo (accRev : List Char) : List Char → Option (List Char × List Char)
  | [] => none
  | c :: r =>
    if c = ':' then
      if accRev.isEmpty then msgCoreGo (c :: accRev) r
      else
        match msgTail r with
        | some g2 => some (accRev.reverse, g2)
        | none => msgCoreGo (c :: accRev) r
    else if c = '\n' then none
    else msgCoreGo (c :: accRev) r

/-- `Self::regex_value().captures(h)` for `Message`: groups 1 and 2 of
`\s?(.+?):\s?(.+)` under leftmost-first matching. -/
def msgCaptures : List Char → Option (List Char × List Char)
  | [] => none
  | c :: r =>
    match (if isSpaceRx c then
             match msgCoreGo [] r with
             | some x => some x
             | none => msgCoreGo [] (c :: r)
           else msgCoreGo [] (c :: r)) with
    | some x => some x
    | none => msgCaptures r

/-- The registered diagnostic-class keyword `MessageNames::WARNING`. -/
def warningKw : List Char :=
  'w' :: 'a' :: 'r' :: 'n' :: 'i' :: 'n' :: 'g' :: []

/-- Zero or one space characters, for stating the whitespace-optionality
properties. -/
def optWs (b : Bool) : List Char := if b then [' '] else []

/-! ## Stage 4: `MyWarning::regex_value`, the pattern `s#(.+?)#s(.+)?`.

Unanchored.  At a start matching the literal `s#`, the lazy `(.+?)` closes
at the first following `#s` leaving a non-empty newline-free inner run; a
`#s` adjacent to the opener is absorbed into the inner run instead.  The
trailing `(.+)?` always succeeds and its capture is unused. -/

/-- Scan for the closing `#s` after an opener; `accRev` is the reversed
inner run consumed so far, which must end non-empty. -/
def mwInnerGo (accRev : List Char) : List Char → Option (List Char)
  | [] => none
  | c :: r =>
    if c = '#' ∧ r.head? = some 's' then
      if accRev.isEmpty then mwInnerGo (c :: accRev) r
      else some accRev.reverse
    else if c = '\n' then none
    else mwInnerGo (c :: accRev) r

/-- `Self::regex_value().captures(h)` for `MyWarning`: group 1 of
`s#(.+?)#s(.+)?` under leftmost-first matching. -/
def mwCaptures : List Char → Option (List Char)
  | [] => none
  | c :: r =>
    match (if c = 's' ∧ r.head? = some '#' then mwInnerGo [] r.tail else none) with
    | some x => some x
    | none => mwCaptures r

/-- Split a character list at the first occurrence of the two-character
delimiter `#s`. -/
def splitHS : List Char → Option (List Char × List Char)
  | [] => none
  | c :: r =>
    if c = '#' ∧ r.head? = some 's' then some ([], r.tail)
    else
      match splitHS r with
      | some (a, b) => some (c :: a, b)
      | none => none

/-- Whether `#s` occurs as a substring. -/
def hasHS (l : List Char) : Bool := (splitHS l).isSome

/-- Whether `s#` occurs as a substring. -/
def hasSH : List Char → Bool
  | [] => false
  | c :: r =>
    if c = 's' ∧ r.head? = some '#' then true
    else hasSH r

/-! ## The `serde_json` model for `MyWarning`.

`MyWarning` derives `serde::Deserialize` with two required string fields
`summary` and `queue`.  `serde_json::from_str` parses a complete JSON value
and then requires only whitespace to follow.  For a derived struct the
value must be a JSON object; unknown fields are parsed and discarded,
a repeated `summary`/`queue` key is a duplicate-field error, a missing one
is a missing-field error, and a non-string value for them is a type
error.  All failures collapse to `None` through `.ok()`. -/

/-- A parsed warning record: the two decoded string fields. -/
structure MyWarning where
  summary : List Char
  queue : List Char
deriving DecidableEq, Repr

/-- JSON insignificant whitespace. -/
def jsonWs (c : Char) : Bool := c = ' ' || c = '\t' || c = '\n' || c = '\r'

/-- Drop leading JSON whitespace. -/
def skipWs (l : List Char) : List Char := l.dropWhile jsonWs

/-- Consume one expected character. -/
def expectChar (c : Char) : List Char → Option (List Char)
  | x :: r => if x = c then some r else none
  | [] => none

/-- Consume an expected literal character sequence. -/
def expectLit : List Char → List Char → Option (List Char)
  | [], l => some l
  | c :: cs, x :: r => if x = c then expectLit cs r else none
  | _ :: _, [] => none

/-- Value of a hexadecimal digit. -/
def hexVal (c : Char) : Option Nat :=
  if '0' ≤ c ∧ c ≤ '9' then some (c.toNat - 48)
  else if 'a' ≤ c ∧ c ≤ 'f' then some (c.toNat - 87)
  else if 'A' ≤ c ∧ c ≤ 'F' then some (c.toNat - 55)
  else none

/-- Single-character JSON escapes. -/
def escChar (c : Char) : Option Char :=
  if c = '"' then some '"'
  else if c = '\\' then some '\\'
  else if c = '/' then some '/'
  else if c = 'b' then some (Char.ofNat 8)
  else if c = 'f' then some (Char.ofNat 12)
  else if c = 'n' then some '\n'
  else if c = 'r' then some '\r'
  else if c = 't' then some '\t'
  else none

/-- Scan the raw body of a JSON string after its opening quote up to the
closing quote; the flag records whether the previous character was an
unconsumed backslash, which protects the current character.  Returns the
raw body and the input after the closing quote. -/
def rawStringGo : Bool → List Char → Option (List Char × List Char)
  | _, [] => none
  | esc, c :: r =>
    if esc then
      match rawStringGo false r with
      | some (raw, rest) => some (c :: raw, rest)
      | none => none
    else if c = '"' then some ([], r)
    else if c = '\\' then
      match rawStringGo true r with
      | some (raw, rest) => some (c :: raw, rest)
      | none => none
    else
      match rawStringGo false r with
      | some (raw, rest) => some (c :: raw, rest)
      | none => none

/-- The raw body of a JSON string after its opening quote. -/
def rawStringBody : List Char → Option (List Char × List Char) :=
  rawStringGo false

/-- Decode the escapes of a raw string body, rejecting invalid escapes,
raw control characters and lone `\uXXXX` surrogates, and pairing
`\uXXXX\uXXXX` surrogate pairs, as serde_json does. -/
def decodeEscapes : List Char → Option (List Char)
  | [] => some []
  | '\\' :: 'u' :: h1 :: h2 :: h3 :: h4 :: r =>
    match hexVal h1, hexVal h2, hexVal h3, hexVal h4 with
    | some a, some b, some c, some d =>
      let n := ((a * 16 + b) * 16 + c) * 16 + d
      if n < 0xD800 ∨ 0xDFFF < n then
        match decodeEscapes r with
        | some s => some (Char.ofNat n :: s)
        | none => none
      else if n ≤ 0xDBFF then
        match r with
        | '\\' :: 'u' :: h5 :: h6 :: h7 :: h8 :: r2 =>
          match hexVal h5, hexVal h6, hexVal h7, hexVal h8 with
          | some a2, some b2, some c2, some d2 =>
            let m := ((a2 * 16 + b2) * 16 + c2) * 16 + d2
            if 0xDC00 ≤ m ∧ m ≤ 0xDFFF then
              match decodeEscapes r2 with
              | some s => some (Char.ofNat (0x10000 + (n - 0xD800) * 0x400 + (m - 0xDC00)) :: s)
              | none => none
            else none
          | _, _, _, _ => none
        | _ => none
      else none
    | _, _, _, _ => none
  | '\\' :: c :: r =>
    match escChar c with
    | some c2 =>
      match decodeEscapes r with
      | some s => some (c2 :: s)
      | none => none
    | none => none
  | c :: r =>
    if c.toNat < 32 then none
    else
      match decodeEscapes r with
      | some s => some (c :: s)
      | none => none

/-- Parse the body of a JSON string after its opening quote, returning the
decoded character content and the input after the closing quote. -/
def parseStringBody (l : List Char) : Option (List Char × List Char) :=
  match rawStringBody l with
  | some (raw, rest) =>
    match decodeEscapes raw with
    | some s => some (s, rest)
    | none => none
  | none => none

/-- Drop an optional leading sign of a JSON exponent. -/
def numSign (l : List Char) : List Char :=
  match l with
  | [] => []
  | s :: r2 => if s = '+' || s = '-' then r2 else s :: r2

/-- Require one digit and skip the following digit run. -/
def numDigits1 (l : List Char) : Option (List Char) :=
  match l with
  | [] => none
  | d :: r2 => if d.isDigit then some (r2.dropWhile Char.isDigit) else none

/-- Skip the exponent part of a JSON number, if present. -/
def numExpTail (l : List Char) : Option (List Char) :=
  match l with
  | [] => some []
  | c :: r =>
    if c = 'e' || c = 'E' then numDigits1 (numSign r)
    else some (c :: r)

/-- After a fraction dot: require one digit, skip the digit run, then the
exponent. -/
def numFracDigits (l : List Char) : Option (List Char) :=
  match l with
  | [] => none
  | d :: r2 => if d.isDigit then numExpTail (r2.dropWhile Char.isDigit) else none

/-- Skip the fraction and exponent parts of a JSON number, if present. -/
def numFracTail (l : List Char) : Option (List Char) :=
  match l with
  | [] => numExpTail []
  | c :: r => if c = '.' then numFracDigits r else numExpTail (c :: r)

/-- After a leading zero: no further digit may follow. -/
def numZeroTail (l : List Char) : Option (List Char) :=
  match l with
  | [] => numFracTail []
  | d :: _ => if d.isDigit then none else numFracTail l

/-- The unsigned part of a JSON number: an integer part with no leading
zero, optional fraction and exponent. -/
def numUnsigned (l : List Char) : Option (List Char) :=
  match l with
  | [] => none
  | c :: r =>
    if c = '0' then numZeroTail r
    else if c.isDigit then numFracTail (r.dropWhile Char.isDigit)
    else none

/-- Skip a JSON number per the JSON grammar: optional minus, an integer
part with no leading zero, optional fraction and exponent. -/
def parseNumberSkip (l : List Char) : Option (List Char) :=
  match l with
  | [] => none
  | c :: r => if c = '-' then numUnsigned r else numUnsigned (c :: r)

mutual

/-- Skip one JSON value; the input starts at the value's first character.
The fuel bounds recursion depth and is chosen large enough at the top. -/
def skipJsonValue : Nat → List Char → Option (List Char)
  | 0, _ => none
  | f + 1, l =>
    match l with
    | [] => none
    | c :: r =>
      if c = '"' then
        match parseStringBody r with
        | some (_, rest) => some rest
        | none => none
      else if c = lb then
        match expectChar rb (skipWs r) with
        | some r2 => some r2
        | none => skipJsonMembers f (skipWs r)
      else if c = '[' then
        match expectChar ']' (skipWs r) with
        | some r2 => some r2
        | none => skipJsonElems f (skipWs r)
      else if c = 't' then expectLit (("rue").data) r
      else if c = 'f' then expectLit (("alse").data) r
      else if c = 'n' then expectLit (("ull").data) r
      else if c = '-' || c.isDigit then parseNumberSkip (c :: r)
      else none

/-- Skip the members of a JSON object being discarded; positioned at a
member's opening key quote. -/
def skipJsonMembers : Nat → List Char → Option (List Char)
  | 0, _ => none
  | f + 1, l =>
    match l with
    | [] => none
    | c :: r =>
      if c = '"' then
        match parseStringBody r with
        | some (_, r1) =>
          match expectChar ':' (skipWs r1) with
          | some r2 =>
            match skipJsonValue f (skipWs r2) with
            | some r3 =>
              match skipWs r3 with
              | x :: r4 =>
                if x = ',' then skipJsonMembers f (skipWs r4)
                else if x = rb then some r4 else none
              | [] => none
            | none => none
          | none => none
        | none => none
      else none

/-- Skip the elements of a JSON array being discarded; positioned at an
element's first character. -/
def skipJsonElems : Nat → List Char → Option (List Char)
  | 0, _ => none
  | f + 1, l =>
    match skipJsonValue f l with
    | some r =>
      match skipWs r with
      | x :: r2 =>
        if x = ',' then skipJsonElems f (skipWs r2)
        else if x = ']' then some r2 else none
      | [] => none
    | none => none

end

mutual

/-- Parse the members of the top-level object of a `MyWarning`, collecting
the `summary` and `queue` string fields, skipping unknown fields, and
failing on duplicate known fields or non-string values for them.
Positioned at a member's opening key quote. -/
def parseMembersMW : Nat → List Char → Option (List Char) → Option (List Char) →
    Option (Option (List Char) × Option (List Char) × List Char)
  | 0, _, _, _ => none
  | f + 1, l, s, q =>
    match l with
    | [] => none
    | c :: r =>
      if c = '"' then
        match parseStringBody r with
        | some (key, r1) =>
          match expectChar ':' (skipWs r1) with
          | some r2 =>
            if key = ("summary").data then
              match s with
              | some _ => none
              | none =>
                match expectChar '"' (skipWs r2) with
                | some r3 =>
                  match parseStringBody r3 with
                  | some (v, r4) => contMW f r4 (some v) q
                  | none => none
                | none => none
            else if key = ("queue").data then
              match q with
              | some _ => none
              | none =>
                match expectChar '"' (skipWs r2) with
                | some r3 =>
                  match parseStringBody r3 with
                  | some (v, r4) => contMW f r4 s (some v)
                  | none => none
                | none => none
            else
              match skipJsonValue f (skipWs r2) with
              | some r4 => contMW f r4 s q
              | none => none
          | none => none
        | none => none
      else none

/-- After a member's value: either a comma and another member, or the
object's closing brace. -/
def contMW : Nat → List Char → Option (List Char) → Option (List Char) →
    Option (Option (List Char) × Option (List Char) × List Char)
  | 0, _, _, _ => none
  | f + 1, r, s, q =>
    match skipWs r with
    | x :: r2 =>
      if x = ',' then parseMembersMW f (skipWs r2) s q
      else if x = rb then some (s, q, r2) else none
    | [] => none

end

/-- `serde_json::from_str::<MyWarning>(l).ok()`: a complete JSON object
with string fields `summary` and `queue`, followed by whitespace only. -/
def decodeMyWarning (l : List Char) : Option MyWarning :=
  match expectChar lb (skipWs l) with
  | none => none
  | some r =>
    match (match expectChar rb (skipWs r) with
           | some r2 => some ((none : Option (List Char)), (none : Option (List Char)), r2)
           | none => parseMembersMW (2 * l.length + 4) (skipWs r) none none) with
    | some (some s, some q, rest) =>
      if skipWs rest = [] then some (MyWarning.mk s q) else none
    | _ => none

/-! ## The data model and the four constructors. -/

/-- `Message<T>`: a tagged union with the single variant `Warning`. -/
inductive Message (T : Type) where
  | Warning : T → Message T
deriving DecidableEq, Repr

/-- `CodeFragment<T>`: line and column with optional task information. -/
structure CodeFragment (T : Type) where
  line : Nat
  column : Nat
  task_info : Option (Message T)
deriving DecidableEq, Repr

/-- `LogFile<T>`: an absolute path and an optional code fragment. -/
structure LogFile (T : Type) where
  absolute_path : List Char
  code_fragment : Option (CodeFragment T)
deriving DecidableEq, Repr

/-- `MyWarning::new_from_regex`: search for the delimited blob and decode
capture group 1 with serde_json. -/
def MyWarning.new_from_regex (l : List Char) : Option MyWarning :=
  match mwCaptures l with
  | none => none
  | some json_text => decodeMyWarning json_text

/-- `Message::<T>::new_from_regex`, generic over the payload type's
`T::new_from_regex` as the Rust code is generic over `T: TaskMessage`:
match the keyword/remainder pattern, then require the keyword to equal
`MessageNames::WARNING` exactly and the payload to decode. -/
def Message.new_from_regex {T : Type} (tp : List Char → Option T)
    (l : List Char) : Option (Message T) :=
  match msgCaptures l with
  | none => none
  | some (message_type, rest) =>
    if message_type = warningKw then
      match tp rest with
      | some value => some (Message.Warning value)
      | none => none
    else none

/-- `CodeFragment::<T>::new_from_regex`: match the position pattern, parse
both integers as `usize` (any failure aborts the stage), and attach the
optional message parsed from the remainder. -/
def CodeFragment.new_from_regex {T : Type} (tp : List Char → Option T)
    (l : List Char) : Option (CodeFragment T) :=
  match codeFragCaptures l with
  | none => none
  | some (d1, d2, rest) =>
    match parseUsize d1 with
    | none => none
    | some line =>
      match parseUsize d2 with
      | none => none
      | some column => some ⟨line, column, Message.new_from_regex tp rest⟩

/-- `LogFile::<T>::new_from_regex`: match the path pattern and attach the
optional code fragment parsed from the remainder.  On a successful match
group 2 always participates (it can match the empty string), so the `?` on
`cap.get(2)` never fails. -/
def LogFile.new_from_regex {T : Type} (tp : List Char → Option T)
    (l : List Char) : Option (LogFile T) :=
  match logFileCaptures l with
  | none => none
  | some (absolute_path, rest) =>
    some ⟨absolute_path, CodeFragment.new_from_regex tp rest⟩

/-- The pipeline instantiated at `T = MyWarning`, i.e.
`LogFile::<MyWarning>::new_from_regex`. -/
def logFileNewMW : List Char → Option (LogFile MyWarning) :=
  LogFile.new_from_regex MyWarning.new_from_regex

/-! ## Lemmas about stage 1. -/

theorem takeLine_eq_self {l : List Char} (h : '\n' ∉ l) : takeLine l = l := by
  induction l with
  | nil => rfl
  | cons c r ih =>
    simp only [List.mem_cons, not_or] at h
    have hc : c ≠ '\n' := fun hx => h.1 hx.symm
    have hr := ih h.2
    simp only [takeLine] at hr ⊢
    simp [List.takeWhile_cons, hc, hr]
    exact fun x hx hx2 => h.2 (hx2 ▸ hx)

theorem pathRest_append {p : List Char} (rest : List Char)
    (h1 : ':' ∉ p) (h2 : '\n' ∉ p) :
    pathRest (p ++ ':' :: rest) = some (p, takeLine rest) := by
  induction p with
  | nil => simp [pathRest]
  | cons c p' ih =>
    simp only [List.mem_cons, not_or] at h1 h2
    have hc : c ≠ ':' := fun hx => h1.1 hx.symm
    have hn : c ≠ '\n' := fun hx => h2.1 hx.symm
    have step : (c :: p') ++ ':' :: rest = c :: (p' ++ ':' :: rest) := rfl
    rw [step]
    simp only [pathRest]
    rw [if_neg hc, if_neg hn, ih h1.2 h2.2]

theorem logFileCaptures_append (p rest : List Char)
    (h0 : p ≠ []) (h1 : ':' ∉ p.drop 1) (h2 : '\n' ∉ p) :
    logFileCaptures (p ++ ':' :: rest) = some (p, takeLine rest) := by
  match p with
  | [] => exact absurd rfl h0
  | c :: p' =>
    simp only [List.drop_succ_cons, List.drop_zero] at h1
    simp only [List.mem_cons, not_or] at h2
    have hn : c ≠ '\n' := fun hx => h2.1 hx.symm
    have step : (c :: p') ++ ':' :: rest = c :: (p' ++ ':' :: rest) := rfl
    rw [step]
    simp only [logFileCaptures]
    rw [if_neg hn, pathRest_append rest h1 h2.2]

theorem pathRest_some {l pr r2 : List Char} (h : pathRest l = some (pr, r2)) :
    ':' ∉ pr ∧ '\n' ∉ pr ∧ ∃ rest, l = pr ++ ':' :: rest ∧ r2 = takeLine rest := by
  induction l generalizing pr r2 with
  | nil => simp [pathRest] at h
  | cons c r ih =>
    simp only [pathRest] at h
    by_cases hc : c = ':'
    · rw [if_pos hc] at h
      simp only [Option.some.injEq, Prod.mk.injEq] at h
      refine ⟨by simp [← h.1], by simp [← h.1], r, ?_, h.2.symm⟩
      simp [← h.1, hc]
    · rw [if_neg hc] at h
      by_cases hn : c = '\n'
      · rw [if_pos hn] at h; exact absurd h (by simp)
      · rw [if_neg hn] at h
        match hrec : pathRest r with
        | none => rw [hrec] at h; exact absurd h (by simp)
        | some (p', rest') =>
          rw [hrec] at h
          simp only [Option.some.injEq, Prod.mk.injEq] at h
          obtain ⟨hp, hr⟩ := h
          obtain ⟨m1, m2, rest, heq, hr2⟩ := ih hrec
          refine ⟨?_, ?_, rest, ?_, by rw [← hr, hr2]⟩
          · rw [← hp]; simp only [List.mem_cons, not_or]
            exact ⟨fun hx => hc hx.symm, m1⟩
          · rw [← hp]; simp only [List.mem_cons, not_or]
            exact ⟨fun hx => hn hx.symm, m2⟩
          · rw [← hp, heq]; rfl

theorem logFileCaptures_some {l p r2 : List Char}
    (h : logFileCaptures l = some (p, r2)) :
    p ≠ [] ∧ ':' ∉ p.drop 1 ∧ '\n' ∉ p ∧
      ∃ rest, l = p ++ ':' :: rest ∧ r2 = takeLine rest := by
  match l with
  | [] => simp [logFileCaptures] at h
  | c :: r =>
    simp only [logFileCaptures] at h
    by_cases hn : c = '\n'
    · rw [if_pos hn] at h; exact absurd h (by simp)
    · rw [if_neg hn] at h
      match hrec : pathRest r with
      | none => rw [hrec] at h; exact absurd h (by simp)
      | some (p', rest') =>
        rw [hrec] at h
        simp only [Option.some.injEq, Prod.mk.injEq] at h
        obtain ⟨hp, hr⟩ := h
        obtain ⟨m1, m2, rest, heq, hr2⟩ := pathRest_some hrec
        refine ⟨by simp [← hp], by simpa [← hp] using m1, ?_, rest, ?_,
          by rw [← hr, hr2]⟩
        · rw [← hp]; simp only [List.mem_cons, not_or]
          exact ⟨fun hx => hn hx.symm, m2⟩
        · rw [← hp, heq]; rfl

theorem pathRest_isSome {a : List Char} (b : List Char) (h : '\n' ∉ a) :
    (pathRest (a ++ ':' :: b)).isSome := by
  induction a with
  | nil => simp [pathRest]
  | cons c a' ih =>
    simp only [List.mem_cons, not_or] at h
    have hn : c ≠ '\n' := fun hx => h.1 hx.symm
    have step : (c :: a') ++ ':' :: b = c :: (a' ++ ':' :: b) := rfl
    rw [step]
    simp only [pathRest]
    by_cases hc : c = ':'
    · rw [if_pos hc]; rfl
    · rw [if_neg hc, if_neg hn]
      have := ih h.2
      match hrec : pathRest (a' ++ ':' :: b) with
      | some x => rfl
      | none => rw [hrec] at this; simp at this

theorem logFileCaptures_isSome {a : List Char} (b : List Char) (h0 : a ≠ [])
    (h2 : '\n' ∉ a) : (logFileCaptures (a ++ ':' :: b)).isSome := by
  match a with
  | [] => exact absurd rfl h0
  | c :: a' =>
    simp only [List.mem_cons, not_or] at h2
    have hn : c ≠ '\n' := fun hx => h2.1 hx.symm
    have step : (c :: a') ++ ':' :: b = c :: (a' ++ ':' :: b) := rfl
    rw [step]
    simp only [logFileCaptures]
    rw [if_neg hn]
    have hps := pathRest_isSome b h2.2
    match hrec : pathRest (a' ++ ':' :: b) with
    | some (p, rest) => rfl
    | none => rw [hrec] at hps; simp at hps

/-- C2: the claim as stated is false: the input `":"` is non-empty and
contains a colon, yet the top-level parse returns `None`, because group 1
of `^(.+?):(.*)?` must consume at least one character before the matched
colon. -/
theorem claim2_counterexample :
    logFileNewMW [':'] = none ∧ ([':'] : List Char) ≠ [] ∧
      ':' ∈ ([':'] : List Char) :=
  ⟨rfl, by simp, by simp⟩

/-- C2 (amended): `LogFile::<MyWarning>::new_from_regex` returns `Some`
exactly when the input splits as `a ++ ":" ++ b` with `a` non-empty and
newline-free; in particular it returns `None` for the empty input and every
colon-free input, but also for inputs whose only colons are at index 0 or
preceded by a newline. -/
theorem claim2_amended (l : List Char) :
    (logFileNewMW l).isSome = true ↔
      ∃ a b, l = a ++ ':' :: b ∧ a ≠ [] ∧ '\n' ∉ a := by
  constructor
  · intro h
    simp only [logFileNewMW, LogFile.new_from_regex] at h
    rcases hc : logFileCaptures l with _ | ⟨p, r2⟩
    · rw [hc] at h; simp at h
    · obtain ⟨h0, _, h2, rest, heq, _⟩ := logFileCaptures_some hc
      exact ⟨p, rest, heq, h0, h2⟩
  · rintro ⟨a, b, heq, h0, h2⟩
    subst heq
    have hcap := logFileCaptures_isSome b h0 h2
    obtain ⟨⟨p, r2⟩, hx⟩ := Option.isSome_iff_exists.mp hcap
    simp [logFileNewMW, LogFile.new_from_regex, hx]

/-- C2 witness: the amended characterisation applied at the concrete input
`"a:b"`. -/
theorem claim2_witness :
    (logFileNewMW ('a' :: ':' :: 'b' :: [])).isSome = true :=
  (claim2_amended ('a' :: ':' :: 'b' :: [])).mpr
    ⟨['a'], ['b'], rfl, by simp, by simp⟩

/-- C4: the claim as stated is false: on the input `":x:y"` the top-level
parse succeeds with `absolute_path = ":x"`, while the substring of the
input before its first colon is empty (and in particular differs from the
returned path). -/
theorem claim4_counterexample :
    (logFileNewMW ((":x:y").data)).map LogFile.absolute_path =
        some ((":x").data) ∧
      ((":x:y").data).takeWhile (fun c => c ≠ ':') = [] :=
  ⟨rfl, rfl⟩

/-- C4 (amended): on every successful top-level parse, `absolute_path` is
non-empty and is the verbatim text of the input strictly before the first
colon occurring at index ≥ 1 (so an input-initial colon belongs to the
path), with no trimming or normalisation: the input is exactly the path,
that colon, and the rest. -/
theorem claim4_amended (l : List Char) (lf : LogFile MyWarning)
    (h : logFileNewMW l = some lf) :
    lf.absolute_path ≠ [] ∧ ':' ∉ lf.absolute_path.drop 1 ∧
      '\n' ∉ lf.absolute_path ∧
      ∃ rest, l = lf.absolute_path ++ ':' :: rest := by
  simp only [logFileNewMW, LogFile.new_from_regex] at h
  rcases hc : logFileCaptures l with _ | ⟨p, r2⟩
  · rw [hc] at h; simp at h
  · rw [hc] at h
    simp only [Option.some.injEq] at h
    obtain ⟨h0, h1, h2, rest, heq, _⟩ := logFileCaptures_some hc
    rw [← h]
    exact ⟨h0, h1, h2, rest, heq⟩

/-- C4 witness: the amended claim applied at the concrete input `"a:b"`. -/
theorem claim4_witness :
    ((⟨['a'], none⟩ : LogFile MyWarning).absolute_path ≠ [] ∧
        ':' ∉ ((⟨['a'], none⟩ : LogFile MyWarning).absolute_path).drop 1 ∧
        '\n' ∉ (⟨['a'], none⟩ : LogFile MyWarning).absolute_path ∧
        ∃ rest, ('a' :: ':' :: 'b' :: []) =
          (⟨['a'], none⟩ : LogFile MyWarning).absolute_path ++ ':' :: rest) :=
  claim4_amended ('a' :: ':' :: 'b' :: []) ⟨['a'], none⟩ rfl

/-! ## Lemmas about stage 2. -/

theorem takeWhile_append_all (p : Char → Bool) (L : List Char) (x : Char)
    (r : List Char) (hL : L.all p = true) (hx : p x = false) :
    (L ++ (x :: r)).takeWhile p = L ∧ (L ++ (x :: r)).dropWhile p = x :: r := by
  induction L with
  | nil => simp [List.takeWhile_cons, List.dropWhile_cons, hx]
  | cons c L' ih =>
    simp only [List.all_cons, Bool.and_eq_true] at hL
    have := ih hL.2
    simp [List.takeWhile_cons, List.dropWhile_cons, hL.1, this.1, this.2]

theorem all_takeWhile {p : Char → Bool} (l : List Char) :
    (l.takeWhile p).all p = true := by
  induction l with
  | nil => rfl
  | cons c r ih =>
    by_cases hc : p c = true
    · simp [List.takeWhile_cons, hc, ih]
    · simp [List.takeWhile_cons, Bool.eq_false_iff.mpr hc]

theorem tryPos_not_digit {c : Char} (r : List Char)
    (hc : c.isDigit = false) : tryPos (c :: r) = none := by
  simp [tryPos, List.takeWhile_cons, hc]

theorem tryPos_append {L C : List Char} (rest : List Char)
    (hL0 : L ≠ []) (hL : L.all Char.isDigit = true)
    (hC0 : C ≠ []) (hC : C.all Char.isDigit = true) :
    tryPos (L ++ (':' :: (C ++ (':' :: rest)))) = some (L, C, takeLine rest) := by
  have hcolon : Char.isDigit ':' = false := by decide
  have h1 := takeWhile_append_all Char.isDigit L ':' (C ++ (':' :: rest)) hL hcolon
  have h2 := takeWhile_append_all Char.isDigit C ':' rest hC hcolon
  simp only [tryPos, h1.1, h1.2, h2.1, h2.2]
  simp [List.isEmpty_iff, hL0, hC0]

theorem codeFragCaptures_skip {junk : List Char} (l : List Char)
    (hj : junk.all (fun c => !c.isDigit) = true) :
    codeFragCaptures (junk ++ l) = codeFragCaptures l := by
  induction junk with
  | nil => rfl
  | cons c j' ih =>
    simp only [List.all_cons, Bool.and_eq_true, Bool.not_eq_true'] at hj
    have step : (c :: j') ++ l = c :: (j' ++ l) := rfl
    rw [step]
    simp only [codeFragCaptures, tryPos_not_digit (j' ++ l) hj.1]
    exact ih hj.2

theorem codeFragCaptures_append (junk L C rest : List Char)
    (hj : junk.all (fun c => !c.isDigit) = true)
    (hL0 : L ≠ []) (hL : L.all Char.isDigit = true)
    (hC0 : C ≠ []) (hC : C.all Char.isDigit = true) :
    codeFragCaptures (junk ++ (L ++ (':' :: (C ++ (':' :: rest))))) =
      some (L, C, takeLine rest) := by
  rw [codeFragCaptures_skip (L ++ (':' :: (C ++ (':' :: rest)))) hj]
  match L, hL0 with
  | c :: L', _ =>
    have step : (c :: L') ++ (':' :: (C ++ (':' :: rest))) =
        c :: (L' ++ (':' :: (C ++ (':' :: rest)))) := rfl
    have htp := tryPos_append rest (by simp : (c :: L') ≠ []) hL hC0 hC
    rw [step] at htp ⊢
    simp only [codeFragCaptures, htp]

theorem tryPos_some {l d1 d2 r : List Char} (h : tryPos l = some (d1, d2, r)) :
    d1 ≠ [] ∧ d1.all Char.isDigit = true ∧ d2 ≠ [] ∧ d2.all Char.isDigit = true ∧
      ∃ b, l = d1 ++ (':' :: (d2 ++ (':' :: b))) ∧ r = takeLine b := by
  simp only [tryPos] at h
  split at h
  · exact absurd h (by simp)
  · rename_i he1
    split at h
    · rename_i r2 hd
      split at h
      · exact absurd h (by simp)
      · rename_i he2
        split at h
        · rename_i r4 hd2
          simp only [Option.some.injEq, Prod.mk.injEq] at h
          obtain ⟨e1, e2, e3⟩ := h
          refine ⟨?_, by rw [← e1]; exact all_takeWhile l,
            ?_, by rw [← e2]; exact all_takeWhile r2,
            r4, ?_, e3.symm⟩
          · rw [← e1]; simpa [List.isEmpty_iff] using he1
          · rw [← e2]; simpa [List.isEmpty_iff] using he2
          · have g1 : l = l.takeWhile Char.isDigit ++ l.dropWhile Char.isDigit :=
              (List.takeWhile_append_dropWhile _ _).symm
            have g2 : r2 = r2.takeWhile Char.isDigit ++ r2.dropWhile Char.isDigit :=
              (List.takeWhile_append_dropWhile _ _).symm
            rw [hd2] at g2
            rw [← e1, ← e2]
            calc l = l.takeWhile Char.isDigit ++ l.dropWhile Char.isDigit := g1
              _ = l.takeWhile Char.isDigit ++ (':' :: r2) := by rw [hd]
              _ = l.takeWhile Char.isDigit ++
                  (':' :: (r2.takeWhile Char.isDigit ++ (':' :: r4))) := by rw [← g2]
        · exact absurd h (by simp)
    · exact absurd h (by simp)

theorem codeFragCaptures_some {l d1 d2 r : List Char}
    (h : codeFragCaptures l = some (d1, d2, r)) :
    d1 ≠ [] ∧ d1.all Char.isDigit = true ∧ d2 ≠ [] ∧ d2.all Char.isDigit = true ∧
      ∃ a b, l = a ++ (d1 ++ (':' :: (d2 ++ (':' :: b)))) ∧ r = takeLine b := by
  induction l with
  | nil => simp [codeFragCaptures] at h
  | cons c rest ih =>
    simp only [codeFragCaptures] at h
    split at h
    · rename_i x hx
      rw [Option.some_inj] at h
      rw [h] at hx
      obtain ⟨m1, m2, m3, m4, b, heq, hr⟩ := tryPos_some hx
      exact ⟨m1, m2, m3, m4, [], b, by rw [heq]; rfl, hr⟩
    · obtain ⟨m1, m2, m3, m4, a, b, heq, hr⟩ := ih h
      exact ⟨m1, m2, m3, m4, c :: a, b, by rw [heq]; rfl, hr⟩

theorem parseUsize_of {L : List Char} (h0 : L ≠ [])
    (h1 : L.all Char.isDigit = true) (h2 : digitsToNat L ≤ USIZE_MAX) :
    parseUsize L = some (digitsToNat L) := by
  simp only [parseUsize]
  rw [if_pos ⟨h0, by simpa using h1, h2⟩]

theorem parseUsize_overflow {L : List Char} (h : USIZE_MAX < digitsToNat L) :
    parseUsize L = none := by
  simp only [parseUsize]
  rw [if_neg]
  rintro ⟨-, -, hle⟩
  omega

/-- C7: if the position pattern matches but either captured digit run
overflows the 64-bit `usize`, the whole position stage fails as one unit:
`code_fragment` is `None` (so no classification of the remainder is ever
attempted or recorded), while the path stays populated. -/
theorem claim7 (l p rest d1 d2 r3 : List Char)
    (hcap : logFileCaptures l = some (p, rest))
    (hpos : codeFragCaptures rest = some (d1, d2, r3))
    (hover : USIZE_MAX < digitsToNat d1 ∨ USIZE_MAX < digitsToNat d2) :
    logFileNewMW l = some ⟨p, none⟩ := by
  have hcf : CodeFragment.new_from_regex MyWarning.new_from_regex rest = none := by
    simp only [CodeFragment.new_from_regex, hpos]
    rcases hover with h | h
    · rw [parseUsize_overflow h]
    · rw [parseUsize_overflow h]
      rcases parseUsize d1 with _ | ln <;> rfl
  simp [logFileNewMW, LogFile.new_from_regex, hcap, hcf]

/-- C7 witness: a 20-digit line number overflows and yields a populated
path with an absent position. -/
theorem claim7_witness :
    logFileNewMW (("p:99999999999999999999:1: warning: x").data) =
      some ⟨['p'], none⟩ :=
  claim7 (("p:99999999999999999999:1: warning: x").data) ['p']
    (("99999999999999999999:1: warning: x").data)
    (("99999999999999999999").data) ['1'] ((" warning: x").data)
    rfl rfl (Or.inl (by decide))

/-- C8: the nesting invariant and top-down failure propagation: a
successful top-level parse always carries a non-empty path; the path and
the optional code fragment are determined by stages 1-2 alone, so a later
stage returning no-match leaves the earlier stages' structure intact
(`task_info = None` still has line/column, `code_fragment = None` still
has the path); a classified message can only occur nested inside a present
code fragment inside a present log file, by construction. -/
theorem claim8 :
    (∀ l lf, logFileNewMW l = some lf → lf.absolute_path ≠ []) ∧
    (∀ l p rest, logFileCaptures l = some (p, rest) →
      logFileNewMW l =
        some ⟨p, CodeFragment.new_from_regex MyWarning.new_from_regex rest⟩) ∧
    (∀ l d1 d2 rest ln col, codeFragCaptures l = some (d1, d2, rest) →
      parseUsize d1 = some ln → parseUsize d2 = some col →
      CodeFragment.new_from_regex MyWarning.new_from_regex l =
        some ⟨ln, col, Message.new_from_regex MyWarning.new_from_regex rest⟩) := by
  refine ⟨?_, ?_, ?_⟩
  · intro l lf h
    simp only [logFileNewMW, LogFile.new_from_regex] at h
    rcases hc : logFileCaptures l with _ | ⟨p, r2⟩
    · rw [hc] at h; simp at h
    · rw [hc] at h
      simp only [Option.some.injEq] at h
      obtain ⟨h0, -, -, -⟩ := logFileCaptures_some hc
      rw [← h]
      exact h0
  · intro l p rest h
    simp [logFileNewMW, LogFile.new_from_regex, h]
  · intro l d1 d2 rest ln col h hln hcol
    simp [CodeFragment.new_from_regex, h, hln, hcol]

/-- C8 witness: the three invariant components applied at concrete inputs:
`"a:"` (position absent, path intact), `"a:b"` (structure determined by
stage 1), and `"1:2:x"` (message absent, position intact). -/
theorem claim8_witness :
    ((⟨['a'], none⟩ : LogFile MyWarning).absolute_path ≠ []) ∧
    (logFileNewMW ('a' :: ':' :: 'b' :: []) =
      some ⟨['a'], CodeFragment.new_from_regex MyWarning.new_from_regex ['b']⟩) ∧
    (CodeFragment.new_from_regex MyWarning.new_from_regex
        ('1' :: ':' :: '2' :: ':' :: 'x' :: []) =
      some ⟨1, 2, Message.new_from_regex MyWarning.new_from_regex ['x']⟩) :=
  ⟨claim8.1 ('a' :: ':' :: []) ⟨['a'], none⟩ rfl,
   claim8.2.1 ('a' :: ':' :: 'b' :: []) ['a'] ['b'] rfl,
   claim8.2.2 ('1' :: ':' :: '2' :: ':' :: 'x' :: []) ['1'] ['2'] ['x'] 1 2
     rfl rfl rfl⟩

/-- C6: position extraction tolerates an arbitrary digit-free prefix
before the `digits:digits:` shape (first conjunct), and when no such shape
occurs anywhere in the remainder the whole position stage yields no-match,
with no classification attempted, even if a valid keyword and payload
follow elsewhere in the text (second conjunct, exercised on such an input
by the witness). -/
theorem claim6 :
    (∀ junk L C rest : List Char, junk.all (fun c => !c.isDigit) = true →
      L ≠ [] → L.all Char.isDigit = true → C ≠ [] → C.all Char.isDigit = true →
      codeFragCaptures (junk ++ (L ++ (':' :: (C ++ (':' :: rest))))) =
        some (L, C, takeLine rest)) ∧
    (∀ l : List Char,
      (¬ ∃ a d1 d2 b, l = a ++ (d1 ++ (':' :: (d2 ++ (':' :: b)))) ∧
        d1 ≠ [] ∧ d1.all Char.isDigit = true ∧ d2 ≠ [] ∧
        d2.all Char.isDigit = true) →
      CodeFragment.new_from_regex MyWarning.new_from_regex l = none) := by
  refine ⟨?_, ?_⟩
  · intro junk L C rest hj hL0 hL hC0 hC
    exact codeFragCaptures_append junk L C rest hj hL0 hL hC0 hC
  · intro l hnex
    rcases hc : codeFragCaptures l with _ | ⟨da, db, rr⟩
    · simp [CodeFragment.new_from_regex, hc]
    · exfalso
      obtain ⟨m1, m2, m3, m4, a, b, heq, -⟩ := codeFragCaptures_some hc
      exact hnex ⟨a, da, db, b, heq, m1, m2, m3, m4⟩

/-- C6 witness: the prefix-tolerance component applied at the input
`"xc 12:3: r"` (junk prefix before the digits), and the no-shape component
applied at `"q: warning: s#{...}#s"`, a digit-free remainder carrying a
valid keyword and payload, which still yields no position. -/
theorem claim6_witness :
    (codeFragCaptures ((("xc ").data) ++ ((("12").data) ++
        (':' :: ((("3").data) ++ (':' :: ((" r").data)))))) =
      some ((("12").data), (("3").data), takeLine ((" r").data))) ∧
    (CodeFragment.new_from_regex MyWarning.new_from_regex
        ((("q: warning: s#").data) ++ [lb] ++
          (("\"queue\": \"Q\", \"summary\": \"S\"").data) ++ [rb] ++
          (("#s").data)) = none) := by
  constructor
  · exact claim6.1 (("xc ").data) (("12").data) (("3").data) ((" r").data)
      (by decide) (by decide) (by decide) (by decide) (by decide)
  · apply claim6.2
    rintro ⟨a, d1, d2, b, heq, h1, h2, -, -⟩
    obtain ⟨c, tl, rfl⟩ := List.exists_cons_of_ne_nil h1
    have hcd : c.isDigit = true := by
      simp only [List.all_cons, Bool.and_eq_true] at h2
      exact h2.1
    have hmem : c ∈ (("q: warning: s#").data) ++ [lb] ++
        (("\"queue\": \"Q\", \"summary\": \"S\"").data) ++ [rb] ++
        (("#s").data) := by
      rw [heq]
      exact List.mem_append.mpr (Or.inr (List.mem_append.mpr
        (Or.inl (List.mem_cons_self _ _))))
    have hforall : ∀ x ∈ (("q: warning: s#").data) ++ [lb] ++
        (("\"queue\": \"Q\", \"summary\": \"S\"").data) ++ [rb] ++
        (("#s").data), x.isDigit = false := by decide
    rw [hforall c hmem] at hcd
    exact absurd hcd (by simp)

/-! ## Lemmas about stage 3. -/

theorem msgTail_space_cons {y : Char} (ys : List Char) (hy : y ≠ '\n') :
    msgTail (' ' :: (y :: ys)) = some (takeLine (y :: ys)) := by
  simp only [msgTail, show isSpaceRx ' ' = true from rfl, if_true]
  rw [if_neg hy]

theorem msgTail_nospace {x : Char} (r' : List Char)
    (hx1 : isSpaceRx x = false) (hx2 : x ≠ '\n') :
    msgTail (x :: r') = some (takeLine (x :: r')) := by
  simp only [msgTail, hx1, Bool.false_eq_true, if_false]
  rw [if_neg hx2]

theorem msgCoreGo_cons (accRev : List Char) (c : Char) (r : List Char) :
    msgCoreGo accRev (c :: r) =
      if c = ':' then
        if accRev.isEmpty then msgCoreGo (c :: accRev) r
        else
          match msgTail r with
          | some g2 => some (accRev.reverse, g2)
          | none => msgCoreGo (c :: accRev) r
      else if c = '\n' then none
      else msgCoreGo (c :: accRev) r := rfl

theorem msgCaptures_cons (c : Char) (r : List Char) :
    msgCaptures (c :: r) =
      match (if isSpaceRx c then
               match msgCoreGo [] r with
               | some x => some x
               | none => msgCoreGo [] (c :: r)
             else msgCoreGo [] (c :: r)) with
      | some x => some x
      | none => msgCaptures r := rfl

theorem mwInnerGo_cons (accRev : List Char) (c : Char) (r : List Char) :
    mwInnerGo accRev (c :: r) =
      if c = '#' ∧ r.head? = some 's' then
        if accRev.isEmpty then mwInnerGo (c :: accRev) r
        else some accRev.reverse
      else if c = '\n' then none
      else mwInnerGo (c :: accRev) r := rfl

theorem mwCaptures_cons (c : Char) (r : List Char) :
    mwCaptures (c :: r) =
      match (if c = 's' ∧ r.head? = some '#' then mwInnerGo [] r.tail
             else none) with
      | some x => some x
      | none => mwCaptures r := rfl

theorem splitHS_cons (c : Char) (r : List Char) :
    splitHS (c :: r) =
      if c = '#' ∧ r.head? = some 's' then some ([], r.tail)
      else
        match splitHS r with
        | some (a, b) => some (c :: a, b)
        | none => none := rfl

theorem hasSH_cons (c : Char) (r : List Char) :
    hasSH (c :: r) =
      if c = 's' ∧ r.head? = some '#' then true else hasSH r := rfl

theorem msgCoreGo_append (kw acc tail : List Char) {g2 : List Char}
    (hkw1 : ':' ∉ kw) (hkw2 : '\n' ∉ kw) (hne : acc ≠ [] ∨ kw ≠ [])
    (ht : msgTail tail = some g2) :
    msgCoreGo acc (kw ++ (':' :: tail)) = some (acc.reverse ++ kw, g2) := by
  induction kw generalizing acc with
  | nil =>
    have hacc : ¬(acc.isEmpty = true) := by
      simpa [List.isEmpty_iff] using Or.resolve_right hne (fun h => h rfl)
    rw [show ([] : List Char) ++ (':' :: tail) = ':' :: tail from rfl,
      msgCoreGo_cons, if_pos rfl, if_neg hacc, ht]
    simp
  | cons k kw' ih =>
    simp only [List.mem_cons, not_or] at hkw1 hkw2
    have hk1 : k ≠ ':' := fun hx => hkw1.1 hx.symm
    have hk2 : k ≠ '\n' := fun hx => hkw2.1 hx.symm
    rw [show (k :: kw') ++ (':' :: tail) = k :: (kw' ++ (':' :: tail)) from rfl,
      msgCoreGo_cons, if_neg hk1, if_neg hk2,
      ih (k :: acc) hkw1.2 hkw2.2 (Or.inl (by simp))]
    simp

theorem msgCaptures_space_head {c : Char} {l : List Char}
    {x : List Char × List Char} (hc : isSpaceRx c = true)
    (h : msgCoreGo [] l = some x) : msgCaptures (c :: l) = some x := by
  rw [msgCaptures_cons, if_pos hc, h]

theorem msgCaptures_nospace_head {c : Char} {l : List Char}
    {x : List Char × List Char} (hc : isSpaceRx c = false)
    (h : msgCoreGo [] (c :: l) = some x) : msgCaptures (c :: l) = some x := by
  rw [msgCaptures_cons, if_neg (by simp [hc]), h]

/-! ## Lemmas about stage 4. -/

theorem splitHS_append_none {B : List Char} (post : List Char)
    (h : splitHS B = none) :
    splitHS (B ++ ('#' :: 's' :: post)) = some (B, post) := by
  induction B with
  | nil =>
    rw [show ([] : List Char) ++ ('#' :: 's' :: post) = '#' :: 's' :: post from rfl,
      splitHS_cons, if_pos ⟨rfl, rfl⟩]
    rfl
  | cons c r ih =>
    rw [splitHS_cons] at h
    by_cases hc : c = '#' ∧ r.head? = some 's'
    · rw [if_pos hc] at h
      exact absurd h (by simp)
    · rw [if_neg hc] at h
      have hrec : splitHS r = none := by
        rcases hx : splitHS r with _ | ⟨a, b⟩
        · rfl
        · rw [hx] at h; exact absurd h (by simp)
      have hc2 : ¬(c = '#' ∧ (r ++ ('#' :: 's' :: post)).head? = some 's') := by
        rintro ⟨rfl, hh⟩
        rcases r with _ | ⟨y, ys⟩
        · simp at hh
        · exact hc ⟨rfl, by simpa using hh⟩
      rw [show (c :: r) ++ ('#' :: 's' :: post) = c :: (r ++ ('#' :: 's' :: post)) from rfl,
        splitHS_cons, if_neg hc2, ih hrec]

theorem splitHS_append_some {B a b : List Char} (X : List Char)
    (h : splitHS B = some (a, b)) :
    splitHS (B ++ X) = some (a, b ++ X) := by
  induction B generalizing a b with
  | nil => exact absurd h (by simp [splitHS])
  | cons c r ih =>
    rw [splitHS_cons] at h
    rw [show (c :: r) ++ X = c :: (r ++ X) from rfl, splitHS_cons]
    by_cases hc : c = '#' ∧ r.head? = some 's'
    · rw [if_pos hc] at h
      rcases r with _ | ⟨y, ys⟩
      · simp at hc
      · have hy : y = 's' := by simpa using hc.2
        rw [if_pos (show c = '#' ∧ ((y :: ys) ++ X).head? = some 's' from
          ⟨hc.1, by simpa using hy⟩)]
        simp only [Option.some.injEq, Prod.mk.injEq, List.tail_cons] at h ⊢
        refine ⟨h.1, ?_⟩
        rw [← h.2]
        simp [List.cons_append]
    · rw [if_neg hc] at h
      rcases hx : splitHS r with _ | ⟨a', b'⟩
      · rw [hx] at h; exact absurd h (by simp)
      · rw [hx] at h
        simp only [Option.some.injEq, Prod.mk.injEq] at h
        have hc2 : ¬(c = '#' ∧ (r ++ X).head? = some 's') := by
          rintro ⟨rfl, hh⟩
          rcases r with _ | ⟨y, ys⟩
          · simp [splitHS] at hx
          · exact hc ⟨rfl, by simpa using hh⟩
        rw [if_neg hc2, ih hx]
        simp only [Option.some.injEq, Prod.mk.injEq]
        exact ⟨h.1, by rw [← h.2]⟩

theorem splitHS_eq {l a b : List Char} (h : splitHS l = some (a, b)) :
    l = a ++ ('#' :: 's' :: b) := by
  induction l generalizing a b with
  | nil => exact absurd h (by simp [splitHS])
  | cons c r ih =>
    rw [splitHS_cons] at h
    by_cases hc : c = '#' ∧ r.head? = some 's'
    · rw [if_pos hc] at h
      rcases r with _ | ⟨y, ys⟩
      · simp at hc
      · have hy : y = 's' := by simpa using hc.2
        simp only [Option.some.injEq, Prod.mk.injEq, List.tail_cons] at h
        rw [← h.1, hc.1, hy, ← h.2]
        rfl
    · rw [if_neg hc] at h
      rcases hx : splitHS r with _ | ⟨a', b'⟩
      · rw [hx] at h; exact absurd h (by simp)
      · rw [hx] at h
        simp only [Option.some.injEq, Prod.mk.injEq] at h
        rw [← h.1, ← h.2]
        rw [show (c :: a') ++ ('#' :: 's' :: b') = c :: (a' ++ ('#' :: 's' :: b')) from rfl]
        rw [← ih hx]

theorem mwInnerGo_eq {R a b : List Char} (acc : List Char)
    (h : splitHS R = some (a, b)) (hnl : '\n' ∉ a) (hne : acc ≠ [] ∨ a ≠ []) :
    mwInnerGo acc R = some (acc.reverse ++ a) := by
  induction R generalizing acc a b with
  | nil => exact absurd h (by simp [splitHS])
  | cons c r ih =>
    rw [splitHS_cons] at h
    rw [mwInnerGo_cons]
    by_cases hc : c = '#' ∧ r.head? = some 's'
    · rw [if_pos hc] at h
      simp only [Option.some.injEq, Prod.mk.injEq] at h
      have hacc : acc ≠ [] := by
        rcases hne with hx | hx
        · exact hx
        · exact absurd h.1 (fun he => hx he.symm)
      rw [if_pos hc, if_neg (by simpa [List.isEmpty_iff] using hacc)]
      rw [← h.1]
      simp
    · rw [if_neg hc] at h
      rcases hx : splitHS r with _ | ⟨a', b'⟩
      · rw [hx] at h; exact absurd h (by simp)
      · rw [hx] at h
        simp only [Option.some.injEq, Prod.mk.injEq] at h
        have hcn : c ≠ '\n' := by
          intro he
          exact hnl (by rw [← h.1, he]; exact List.mem_cons_self _ _)
        have hnl' : '\n' ∉ a' := by
          intro hm
          exact hnl (by rw [← h.1]; exact List.mem_cons_of_mem _ hm)
        rw [if_neg hc, if_neg hcn,
          ih (c :: acc) hx hnl' (Or.inl (by simp))]
        rw [← h.1]
        simp

theorem mwCaptures_skip {junk R : List Char} {inner : List Char}
    (hj : hasSH junk = false) (h : mwInnerGo [] R = some inner) :
    mwCaptures (junk ++ ('s' :: '#' :: R)) = some inner := by
  induction junk with
  | nil =>
    rw [show ([] : List Char) ++ ('s' :: '#' :: R) = 's' :: '#' :: R from rfl,
      mwCaptures_cons, if_pos ⟨rfl, rfl⟩]
    simp only [List.tail_cons, h]
  | cons c j ih =>
    rw [hasSH_cons] at hj
    by_cases hc : c = 's' ∧ j.head? = some '#'
    · rw [if_pos hc] at hj; exact absurd hj (by simp)
    · rw [if_neg hc] at hj
      have hc2 : ¬(c = 's' ∧ ((j ++ ('s' :: '#' :: R)).head? = some '#')) := by
        rintro ⟨rfl, hh⟩
        rcases j with _ | ⟨y, ys⟩
        · simp at hh
        · exact hc ⟨rfl, by simpa using hh⟩
      rw [show (c :: j) ++ ('s' :: '#' :: R) = c :: (j ++ ('s' :: '#' :: R)) from rfl,
        mwCaptures_cons, if_neg hc2]
      simp only [ih hj]

theorem nmem_cons {d c : Char} {X : List Char} (hc : d ≠ c) (hx : d ∉ X) :
    d ∉ c :: X := by
  simp only [List.mem_cons, not_or]
  exact ⟨hc, hx⟩

theorem nmem_append {d : Char} {X Y : List Char} (hx : d ∉ X) (hy : d ∉ Y) :
    d ∉ X ++ Y := fun hm => (List.mem_append.mp hm).elim hx hy

theorem nl_not_mem_optWs (b : Bool) : '\n' ∉ optWs b := by
  cases b <;> decide

theorem not_nl_of_digits {L : List Char} (h : L.all Char.isDigit = true) :
    '\n' ∉ L := by
  intro hm
  have := List.all_eq_true.mp h _ hm
  exact absurd this (by decide)

theorem mw_new_extract (junk json post : List Char)
    (hj : hasSH junk = false) (hjson0 : json ≠ []) (hnl : '\n' ∉ json)
    (hhs : hasHS json = false) :
    MyWarning.new_from_regex
        (junk ++ ('s' :: '#' :: (json ++ ('#' :: 's' :: post)))) =
      decodeMyWarning json := by
  have hsplit : splitHS json = none := by
    rcases hx : splitHS json with _ | y
    · rfl
    · simp only [hasHS, hx, Option.isSome_some] at hhs
      exact absurd hhs (by decide)
  have h1 : splitHS (json ++ ('#' :: 's' :: post)) = some (json, post) :=
    splitHS_append_none post hsplit
  have h2 : mwInnerGo [] (json ++ ('#' :: 's' :: post)) = some json := by
    have := mwInnerGo_eq [] h1 hnl (Or.inr hjson0)
    simpa using this
  have h3 := mwCaptures_skip hj h2
  simp only [MyWarning.new_from_regex, h3]

theorem pipeline_core (P L C json : List Char) (w : MyWarning) (b1 b2 : Bool)
    (hP0 : P ≠ []) (hP1 : ':' ∉ P) (hP2 : '\n' ∉ P)
    (hL0 : L ≠ []) (hL1 : L.all Char.isDigit = true)
    (hL2 : digitsToNat L ≤ USIZE_MAX)
    (hC0 : C ≠ []) (hC1 : C.all Char.isDigit = true)
    (hC2 : digitsToNat C ≤ USIZE_MAX)
    (hj0 : json ≠ []) (hj1 : '\n' ∉ json) (hj2 : hasHS json = false)
    (hdec : decodeMyWarning json = some w) :
    logFileNewMW (P ++ (':' :: (L ++ (':' :: (C ++ (':' :: (optWs b1 ++
        (warningKw ++ (':' :: (optWs b2 ++ ('s' :: '#' :: (json ++
          ('#' :: 's' :: []))))))))))))) =
      some ⟨P, some ⟨digitsToNat L, digitsToNat C,
        some (Message.Warning w)⟩⟩ := by
  have hnlPay : '\n' ∉ ('s' :: '#' :: (json ++ ('#' :: 's' :: []))) :=
    nmem_cons (by decide) (nmem_cons (by decide)
      (nmem_append hj1 (by decide)))
  have hnlTail : '\n' ∉ (optWs b2 ++ ('s' :: '#' :: (json ++ ('#' :: 's' :: [])))) :=
    nmem_append (nl_not_mem_optWs b2) hnlPay
  have hnlRest3 : '\n' ∉ (optWs b1 ++ (warningKw ++ (':' :: (optWs b2 ++
      ('s' :: '#' :: (json ++ ('#' :: 's' :: []))))))) :=
    nmem_append (nl_not_mem_optWs b1) (nmem_append (by decide)
      (nmem_cons (by decide) hnlTail))
  have hnlRest1 : '\n' ∉ (L ++ (':' :: (C ++ (':' :: (optWs b1 ++
      (warningKw ++ (':' :: (optWs b2 ++ ('s' :: '#' :: (json ++
        ('#' :: 's' :: []))))))))))) :=
    nmem_append (not_nl_of_digits hL1) (nmem_cons (by decide)
      (nmem_append (not_nl_of_digits hC1) (nmem_cons (by decide) hnlRest3)))
  -- stage 1
  have st1 := logFileCaptures_append P
    (L ++ (':' :: (C ++ (':' :: (optWs b1 ++ (warningKw ++ (':' :: (optWs b2 ++
      ('s' :: '#' :: (json ++ ('#' :: 's' :: [])))))))))))
    hP0 (fun hm => hP1 (List.mem_of_mem_drop hm)) hP2
  rw [takeLine_eq_self hnlRest1] at st1
  -- stage 2
  have st2 := codeFragCaptures_append [] L C
    (optWs b1 ++ (warningKw ++ (':' :: (optWs b2 ++ ('s' :: '#' :: (json ++
      ('#' :: 's' :: [])))))))
    rfl hL0 hL1 hC0 hC1
  rw [takeLine_eq_self hnlRest3] at st2
  rw [List.nil_append] at st2
  -- stage 3: the keyword and the group-2 payload
  have htail : msgTail (optWs b2 ++ ('s' :: '#' :: (json ++ ('#' :: 's' :: [])))) =
      some ('s' :: '#' :: (json ++ ('#' :: 's' :: []))) := by
    cases b2 with
    | true =>
      have := msgTail_space_cons ('#' :: (json ++ ('#' :: 's' :: [])))
        (show 's' ≠ '\n' by decide)
      rw [takeLine_eq_self hnlPay] at this
      exact this
    | false =>
      have := msgTail_nospace ('#' :: (json ++ ('#' :: 's' :: [])))
        (show isSpaceRx 's' = false by decide) (show 's' ≠ '\n' by decide)
      rw [takeLine_eq_self hnlPay] at this
      exact this
  have hcore : msgCoreGo [] (warningKw ++ (':' :: (optWs b2 ++
      ('s' :: '#' :: (json ++ ('#' :: 's' :: [])))))) =
      some (warningKw, 's' :: '#' :: (json ++ ('#' :: 's' :: []))) := by
    have := msgCoreGo_append warningKw []
      (optWs b2 ++ ('s' :: '#' :: (json ++ ('#' :: 's' :: []))))
      (by decide) (by decide) (Or.inr (by decide)) htail
    simpa using this
  have hcap : msgCaptures (optWs b1 ++ (warningKw ++ (':' :: (optWs b2 ++
      ('s' :: '#' :: (json ++ ('#' :: 's' :: []))))))) =
      some (warningKw, 's' :: '#' :: (json ++ ('#' :: 's' :: []))) := by
    cases b1 with
    | true => exact msgCaptures_space_head (by decide) hcore
    | false => exact msgCaptures_nospace_head (by decide) hcore
  -- stage 4
  have hmw : MyWarning.new_from_regex ('s' :: '#' :: (json ++ ('#' :: 's' :: []))) =
      some w := by
    have := mw_new_extract [] json [] rfl hj0 hj1 hj2
    rw [List.nil_append] at this
    rw [this, hdec]
  -- assembly
  have hmsg : Message.new_from_regex MyWarning.new_from_regex
      (optWs b1 ++ (warningKw ++ (':' :: (optWs b2 ++
        ('s' :: '#' :: (json ++ ('#' :: 's' :: []))))))) =
      some (Message.Warning w) := by
    simp only [Message.new_from_regex, hcap, if_pos rfl, hmw]
    exact if_pos trivial
  have hcf : CodeFragment.new_from_regex MyWarning.new_from_regex
      (L ++ (':' :: (C ++ (':' :: (optWs b1 ++ (warningKw ++ (':' :: (optWs b2 ++
        ('s' :: '#' :: (json ++ ('#' :: 's' :: []))))))))))) =
      some ⟨digitsToNat L, digitsToNat C, some (Message.Warning w)⟩ := by
    simp only [CodeFragment.new_from_regex, st2, parseUsize_of hL0 hL1 hL2,
      parseUsize_of hC0 hC1 hC2, hmsg]
  simp only [logFileNewMW, LogFile.new_from_regex, st1, hcf]

/-- C1: for every well-formed line `P:L:C: warning: s#json#s` — `P` a
non-empty colon- and newline-free path text, `L` and `C` decimal digit
runs whose values fit in `usize`, and `json` a non-empty newline-free text
not containing the closing delimiter `#s` that serde-decodes into the
record `w` — the top-level parse returns `Some` with `path = P`,
`position.line = L`, `position.column = C`, and the classified `Warning`
record equal to the one implied by `json`. -/
theorem claim1 (P L C json : List Char) (w : MyWarning)
    (hP0 : P ≠ []) (hP1 : ':' ∉ P) (hP2 : '\n' ∉ P)
    (hL0 : L ≠ []) (hL1 : L.all Char.isDigit = true)
    (hL2 : digitsToNat L ≤ USIZE_MAX)
    (hC0 : C ≠ []) (hC1 : C.all Char.isDigit = true)
    (hC2 : digitsToNat C ≤ USIZE_MAX)
    (hj0 : json ≠ []) (hj1 : '\n' ∉ json) (hj2 : hasHS json = false)
    (hdec : decodeMyWarning json = some w) :
    logFileNewMW (P ++ (':' :: (L ++ (':' :: (C ++ (':' :: (' ' :: (warningKw ++
        (':' :: (' ' :: ('s' :: '#' :: (json ++ ('#' :: 's' :: []))))))))))))) =
      some ⟨P, some ⟨digitsToNat L, digitsToNat C,
        some (Message.Warning w)⟩⟩ :=
  pipeline_core P L C json w true true hP0 hP1 hP2 hL0 hL1 hL2
    hC0 hC1 hC2 hj0 hj1 hj2 hdec

/-- C1 witness: the spec's concrete scenario
`path/to/file.log:123:456: warning: s#{"queue": "TESTAPI", "summary":
"Create a task"}#s`. -/
theorem claim1_witness :
    logFileNewMW ((("path/to/file.log").data) ++ (':' :: ((("123").data) ++
        (':' :: ((("456").data) ++ (':' :: (' ' :: (warningKw ++ (':' ::
        (' ' :: ('s' :: '#' :: (([lb] ++ ((("\"queue\": \"TESTAPI\", \"summary\": \"Create a task\"").data) ++ [rb])) ++
          ('#' :: 's' :: []))))))))))))) =
      some ⟨(("path/to/file.log").data), some ⟨123, 456,
        some (Message.Warning
          ⟨(("Create a task").data), (("TESTAPI").data)⟩)⟩⟩ := by
  have := claim1 (("path/to/file.log").data) (("123").data) (("456").data)
    ([lb] ++ ((("\"queue\": \"TESTAPI\", \"summary\": \"Create a task\"").data) ++ [rb]))
    ⟨(("Create a task").data), (("TESTAPI").data)⟩
    (by decide) (by decide) (by decide) (by decide) (by decide) (by decide)
    (by decide) (by decide) (by decide) (by decide) (by decide) (by decide)
    (by rfl)
  exact this

/-- C3: when path and position parse but the captured keyword differs from
`"warning"` or the payload fails to decode, the result keeps path and
position and has `task_info = None` (first conjunct); and a classified
message exists only when the keyword was exactly `"warning"` and the
payload decoded, so there is no "classified but payload absent" state
(second conjunct). -/
theorem claim3 :
    (∀ (l p rest d1 d2 r3 : List Char) (ln col : Nat) (mt r : List Char),
      logFileCaptures l = some (p, rest) →
      codeFragCaptures rest = some (d1, d2, r3) →
      parseUsize d1 = some ln → parseUsize d2 = some col →
      msgCaptures r3 = some (mt, r) →
      (mt ≠ warningKw ∨ MyWarning.new_from_regex r = none) →
      logFileNewMW l = some ⟨p, some ⟨ln, col, none⟩⟩) ∧
    (∀ (l : List Char) (m : Message MyWarning),
      Message.new_from_regex MyWarning.new_from_regex l = some m →
      ∃ r w, msgCaptures l = some (warningKw, r) ∧
        MyWarning.new_from_regex r = some w ∧ m = Message.Warning w) := by
  constructor
  · intro l p rest d1 d2 r3 ln col mt r h1 h2 h3 h4 h5 h6
    have hmsg : Message.new_from_regex MyWarning.new_from_regex r3 = none := by
      simp only [Message.new_from_regex, h5]
      rcases h6 with hne | hnone
      · rw [if_neg hne]
      · by_cases he : mt = warningKw
        · rw [if_pos he, hnone]
        · rw [if_neg he]
    have hcf : CodeFragment.new_from_regex MyWarning.new_from_regex rest =
        some ⟨ln, col, none⟩ := by
      simp only [CodeFragment.new_from_regex, h2, h3, h4, hmsg]
    simp only [logFileNewMW, LogFile.new_from_regex, h1, hcf]
  · intro l m h
    simp only [Message.new_from_regex] at h
    rcases hc : msgCaptures l with _ | ⟨mt, r⟩
    · rw [hc] at h; exact absurd h (by simp)
    · rw [hc] at h
      dsimp only at h
      by_cases he : mt = warningKw
      · rw [if_pos he] at h
        rcases hw : MyWarning.new_from_regex r with _ | w
        · rw [hw] at h; exact absurd h (by simp)
        · rw [hw] at h
          simp only [Option.some.injEq] at h
          exact ⟨r, w, by rw [he], hw, h.symm⟩
      · rw [if_neg he] at h; exact absurd h (by simp)

/-- C3 witness: on `p:1:2: blah: x`, path and position parse, the keyword
`blah` is not `warning`, and the result is path and position with
`task_info = None`. -/
theorem claim3_witness :
    logFileNewMW (("p:1:2: blah: x").data) =
      some ⟨['p'], some ⟨1, 2, none⟩⟩ :=
  claim3.1 (("p:1:2: blah: x").data) ['p'] (("1:2: blah: x").data)
    ['1'] ['2'] ((" blah: x").data) 1 2 (("blah").data) ['x']
    rfl rfl rfl rfl rfl (Or.inl (by decide))

/-- C5: the claim as stated is false: with two spaces between the position
block's final colon and the keyword, the greedy `\s?` consumes only one
space and the captured keyword becomes `" warning"`, so classification
fails and `task_info` is `None`, while the single-space form of the same
line classifies successfully — whitespace in "any amount" is not
tolerated. -/
theorem claim5_counterexample :
    logFileNewMW ((("p:1:2:  warning: s#").data) ++ [lb] ++
        ((("\"queue\": \"q\", \"summary\": \"s\"").data)) ++ [rb] ++
        (("#s").data)) =
      some ⟨['p'], some ⟨1, 2, none⟩⟩ ∧
    logFileNewMW ((("p:1:2: warning: s#").data) ++ [lb] ++
        ((("\"queue\": \"q\", \"summary\": \"s\"").data)) ++ [rb] ++
        (("#s").data)) =
      some ⟨['p'], some ⟨1, 2,
        some (Message.Warning ⟨['s'], ['q']⟩)⟩⟩ :=
  ⟨rfl, rfl⟩

/-- C5 (amended): inserting at most one whitespace character between the
position block's final colon and the keyword, and at most one between the
keyword's colon and the `s#` payload marker, does not affect parse success
or the structured result: all four combinations produce the identical
fully-classified value.  (Two or more whitespace characters before the
keyword are captured into the keyword token and classification fails.) -/
theorem claim5_amended (P L C json : List Char) (w : MyWarning) (b1 b2 : Bool)
    (hP0 : P ≠ []) (hP1 : ':' ∉ P) (hP2 : '\n' ∉ P)
    (hL0 : L ≠ []) (hL1 : L.all Char.isDigit = true)
    (hL2 : digitsToNat L ≤ USIZE_MAX)
    (hC0 : C ≠ []) (hC1 : C.all Char.isDigit = true)
    (hC2 : digitsToNat C ≤ USIZE_MAX)
    (hj0 : json ≠ []) (hj1 : '\n' ∉ json) (hj2 : hasHS json = false)
    (hdec : decodeMyWarning json = some w) :
    logFileNewMW (P ++ (':' :: (L ++ (':' :: (C ++ (':' :: (optWs b1 ++
        (warningKw ++ (':' :: (optWs b2 ++ ('s' :: '#' :: (json ++
          ('#' :: 's' :: []))))))))))))) =
      some ⟨P, some ⟨digitsToNat L, digitsToNat C,
        some (Message.Warning w)⟩⟩ :=
  pipeline_core P L C json w b1 b2 hP0 hP1 hP2 hL0 hL1 hL2
    hC0 hC1 hC2 hj0 hj1 hj2 hdec

/-- C5 witness: the colon-adjacent no-whitespace form
`p:1:2:warning:s#{...}#s` parses to the fully classified value. -/
theorem claim5_witness :
    logFileNewMW ((("p").data) ++ (':' :: ((("1").data) ++ (':' ::
        ((("2").data) ++ (':' :: (optWs false ++ (warningKw ++ (':' ::
        (optWs false ++ ('s' :: '#' :: (([lb] ++
          ((("\"queue\": \"q\", \"summary\": \"s\"").data) ++ [rb])) ++
          ('#' :: 's' :: []))))))))))))) =
      some ⟨(("p").data), some ⟨1, 2,
        some (Message.Warning ⟨['s'], ['q']⟩)⟩⟩ := by
  have := claim5_amended (("p").data) (("1").data) (("2").data)
    ([lb] ++ ((("\"queue\": \"q\", \"summary\": \"s\"").data) ++ [rb]))
    ⟨['s'], ['q']⟩ false false
    (by decide) (by decide) (by decide) (by decide) (by decide) (by decide)
    (by decide) (by decide) (by decide) (by decide) (by decide) (by decide)
    (by rfl)
  exact this

/-- C10: the claim as stated is false: on
`p:1:2: warning: as#b s#{valid json}#s` the skipped text before the first
`s#` marker is just `"a"` and contains no `s#...#s` pair, so the claim
predicts a decoded payload; but the lone `s#` inside the junk commits the
unanchored search, the captured inner run becomes `b s#{valid json}`,
decoding fails, and the classified message is absent, even though the
json body alone decodes fine (second conjunct). -/
theorem claim10_counterexample :
    logFileNewMW ((("p:1:2: warning: as#b s#").data) ++ [lb] ++
        ((("\"queue\": \"q\", \"summary\": \"s\"").data)) ++ [rb] ++
        (("#s").data)) =
      some ⟨['p'], some ⟨1, 2, none⟩⟩ ∧
    decodeMyWarning ([lb] ++ ((("\"queue\": \"q\", \"summary\": \"s\"").data) ++
        [rb])) = some ⟨['s'], ['q']⟩ :=
  ⟨rfl, rfl⟩

/-- C10 (amended): payload location is an unanchored search: arbitrary
junk between the recognized keyword and the payload marker is skipped and
the payload still decodes, provided the junk is newline-free and contains
no occurrence of `s#` at all (a lone `s#` in the junk, even without a
closing `#s` inside the junk, commits the match to it and decoding
fails). -/
theorem claim10_amended (P L C junk json : List Char) (w : MyWarning)
    (hP0 : P ≠ []) (hP1 : ':' ∉ P) (hP2 : '\n' ∉ P)
    (hL0 : L ≠ []) (hL1 : L.all Char.isDigit = true)
    (hL2 : digitsToNat L ≤ USIZE_MAX)
    (hC0 : C ≠ []) (hC1 : C.all Char.isDigit = true)
    (hC2 : digitsToNat C ≤ USIZE_MAX)
    (hj0 : json ≠ []) (hj1 : '\n' ∉ json) (hj2 : hasHS json = false)
    (hdec : decodeMyWarning json = some w)
    (hjk1 : hasSH junk = false) (hjk2 : '\n' ∉ junk) :
    logFileNewMW (P ++ (':' :: (L ++ (':' :: (C ++ (':' :: (' ' ::
        (warningKw ++ (':' :: (' ' :: (junk ++ ('s' :: '#' :: (json ++
          ('#' :: 's' :: [])))))))))))))) =
      some ⟨P, some ⟨digitsToNat L, digitsToNat C,
        some (Message.Warning w)⟩⟩ := by
  have hnlS : '\n' ∉ ('s' :: '#' :: (json ++ ('#' :: 's' :: []))) :=
    nmem_cons (by decide) (nmem_cons (by decide)
      (nmem_append hj1 (by decide)))
  have hnlPay : '\n' ∉ (junk ++ ('s' :: '#' :: (json ++ ('#' :: 's' :: [])))) :=
    nmem_append hjk2 hnlS
  have hnlRest3 : '\n' ∉ (' ' :: (warningKw ++ (':' :: (' ' :: (junk ++
      ('s' :: '#' :: (json ++ ('#' :: 's' :: [])))))))) :=
    nmem_cons (by decide) (nmem_append (by decide)
      (nmem_cons (by decide) (nmem_cons (by decide) hnlPay)))
  have hnlRest1 : '\n' ∉ (L ++ (':' :: (C ++ (':' :: (' ' :: (warningKw ++
      (':' :: (' ' :: (junk ++ ('s' :: '#' :: (json ++
        ('#' :: 's' :: [])))))))))))) :=
    nmem_append (not_nl_of_digits hL1) (nmem_cons (by decide)
      (nmem_append (not_nl_of_digits hC1) (nmem_cons (by decide) hnlRest3)))
  have st1 := logFileCaptures_append P
    (L ++ (':' :: (C ++ (':' :: (' ' :: (warningKw ++ (':' :: (' ' :: (junk ++
      ('s' :: '#' :: (json ++ ('#' :: 's' :: []))))))))))))
    hP0 (fun hm => hP1 (List.mem_of_mem_drop hm)) hP2
  rw [takeLine_eq_self hnlRest1] at st1
  have st2 := codeFragCaptures_append [] L C
    (' ' :: (warningKw ++ (':' :: (' ' :: (junk ++ ('s' :: '#' :: (json ++
      ('#' :: 's' :: []))))))))
    rfl hL0 hL1 hC0 hC1
  rw [takeLine_eq_self hnlRest3] at st2
  rw [List.nil_append] at st2
  have htail : msgTail (' ' :: (junk ++ ('s' :: '#' :: (json ++
      ('#' :: 's' :: []))))) =
      some (junk ++ ('s' :: '#' :: (json ++ ('#' :: 's' :: [])))) := by
    rcases junk with _ | ⟨jc, jr⟩
    · rw [List.nil_append]
      have := msgTail_space_cons ('#' :: (json ++ ('#' :: 's' :: [])))
        (show 's' ≠ '\n' by decide)
      rw [takeLine_eq_self hnlS] at this
      exact this
    · have hjc : jc ≠ '\n' := by
        intro he
        exact hjk2 (he ▸ List.mem_cons_self _ _)
      rw [show (jc :: jr) ++ ('s' :: '#' :: (json ++ ('#' :: 's' :: []))) =
        jc :: (jr ++ ('s' :: '#' :: (json ++ ('#' :: 's' :: [])))) from rfl]
      have := msgTail_space_cons
        (jr ++ ('s' :: '#' :: (json ++ ('#' :: 's' :: [])))) hjc
      rw [takeLine_eq_self (by
        intro hm
        rcases List.mem_cons.mp hm with h | h
        · exact hjc h.symm
        · exact (nmem_append (fun hx => hjk2 (List.mem_cons_of_mem _ hx))
            hnlS) h)] at this
      exact this
  have hcore : msgCoreGo [] (warningKw ++ (':' :: (' ' :: (junk ++
      ('s' :: '#' :: (json ++ ('#' :: 's' :: []))))))) =
      some (warningKw, junk ++ ('s' :: '#' :: (json ++ ('#' :: 's' :: [])))) := by
    have := msgCoreGo_append warningKw []
      (' ' :: (junk ++ ('s' :: '#' :: (json ++ ('#' :: 's' :: [])))))
      (by decide) (by decide) (Or.inr (by decide)) htail
    simpa using this
  have hcap : msgCaptures (' ' :: (warningKw ++ (':' :: (' ' :: (junk ++
      ('s' :: '#' :: (json ++ ('#' :: 's' :: [])))))))) =
      some (warningKw, junk ++ ('s' :: '#' :: (json ++ ('#' :: 's' :: [])))) :=
    msgCaptures_space_head (by decide) hcore
  have hmw : MyWarning.new_from_regex (junk ++ ('s' :: '#' :: (json ++
      ('#' :: 's' :: [])))) = some w := by
    rw [mw_new_extract junk json [] hjk1 hj0 hj1 hj2, hdec]
  have hmsg : Message.new_from_regex MyWarning.new_from_regex
      (' ' :: (warningKw ++ (':' :: (' ' :: (junk ++ ('s' :: '#' :: (json ++
        ('#' :: 's' :: [])))))))) = some (Message.Warning w) := by
    simp only [Message.new_from_regex, hcap, if_pos rfl, hmw]
    exact if_pos trivial
  have hcf : CodeFragment.new_from_regex MyWarning.new_from_regex
      (L ++ (':' :: (C ++ (':' :: (' ' :: (warningKw ++ (':' :: (' ' ::
        (junk ++ ('s' :: '#' :: (json ++ ('#' :: 's' :: [])))))))))))) =
      some ⟨digitsToNat L, digitsToNat C, some (Message.Warning w)⟩ := by
    simp only [CodeFragment.new_from_regex, st2, parseUsize_of hL0 hL1 hL2,
      parseUsize_of hC0 hC1 hC2, hmsg]
  simp only [logFileNewMW, LogFile.new_from_regex, st1, hcf]

/-- C10 witness: junk `"junk "` (which contains no `s#`) between the
keyword and the payload marker is skipped and the payload still
decodes. -/
theorem claim10_witness :
    logFileNewMW ((("p").data) ++ (':' :: ((("1").data) ++ (':' ::
        ((("2").data) ++ (':' :: (' ' :: (warningKw ++ (':' :: (' ' ::
        ((("junk ").data) ++ ('s' :: '#' :: (([lb] ++
          ((("\"queue\": \"q\", \"summary\": \"s\"").data) ++ [rb])) ++
          ('#' :: 's' :: [])))))))))))))) =
      some ⟨(("p").data), some ⟨1, 2,
        some (Message.Warning ⟨['s'], ['q']⟩)⟩⟩ := by
  have := claim10_amended (("p").data) (("1").data) (("2").data)
    (("junk ").data)
    ([lb] ++ ((("\"queue\": \"q\", \"summary\": \"s\"").data) ++ [rb]))
    ⟨['s'], ['q']⟩
    (by decide) (by decide) (by decide) (by decide) (by decide) (by decide)
    (by decide) (by decide) (by decide) (by decide) (by decide) (by decide)
    (by rfl) (by decide) (by decide)
  exact this

/-! ## Lemmas about the serde_json model, for the delimiter-truncation
property: a successful parse is determined by the consumed prefix, so
extending the input after the consumed region only extends the returned
rest, and a trailing non-whitespace region makes `from_str` fail. -/

theorem expectChar_some {c : Char} {l r : List Char}
    (h : expectChar c l = some r) : l = c :: r := by
  match l with
  | [] => simp [expectChar] at h
  | x :: r0 =>
    simp only [expectChar] at h
    by_cases hx : x = c
    · rw [if_pos hx] at h
      simp only [Option.some.injEq] at h
      rw [hx, h]
    · rw [if_neg hx] at h
      exact absurd h (by simp)

theorem expectChar_cons_ne {c x : Char} (r : List Char) (hx : x ≠ c) :
    expectChar c (x :: r) = none := by
  simp only [expectChar]
  rw [if_neg hx]

theorem skipWs_append_cons {l : List Char} {x : Char} {r : List Char}
    (e : List Char) (h : skipWs l = x :: r) :
    skipWs (l ++ e) = x :: (r ++ e) := by
  induction l with
  | nil => simp [skipWs] at h
  | cons c l' ih =>
    simp only [skipWs, List.cons_append, List.dropWhile_cons] at h ⊢
    by_cases hc : jsonWs c = true
    · rw [if_pos hc] at h
      rw [if_pos hc]
      exact ih h
    · rw [if_neg hc] at h
      rw [if_neg hc]
      simp only [List.cons.injEq] at h ⊢
      exact ⟨h.1, by rw [← h.2]⟩

theorem skipWs_append_nil {l : List Char} (e : List Char)
    (h : skipWs l = []) : skipWs (l ++ e) = skipWs e := by
  induction l with
  | nil => rfl
  | cons c l' ih =>
    simp only [skipWs, List.cons_append, List.dropWhile_cons] at h ⊢
    by_cases hc : jsonWs c = true
    · rw [if_pos hc] at h
      rw [if_pos hc]
      exact ih h
    · rw [if_neg hc] at h
      exact absurd h (by simp)

theorem skipWs_not_ws {x : Char} (r : List Char) (hx : jsonWs x = false) :
    skipWs (x :: r) = x :: r := by
  simp only [skipWs, List.dropWhile_cons]
  rw [if_neg (by simp [hx])]

theorem skipJsonValue_nil (f : Nat) : skipJsonValue f [] = none := by
  cases f <;> rfl

theorem skipJsonElems_nil (f : Nat) : skipJsonElems f [] = none := by
  cases f with
  | zero => rfl
  | succ f => simp [skipJsonElems, skipJsonValue_nil]

theorem parseMembersMW_shape {f : Nat} {l : List Char}
    {s q : Option (List Char)}
    {x : Option (List Char) × Option (List Char) × List Char}
    (h : parseMembersMW f l s q = some x) : ∃ ys, l = '"' :: ys := by
  cases f with
  | zero => simp [parseMembersMW] at h
  | succ f =>
    match l with
    | [] => simp [parseMembersMW] at h
    | c :: r =>
      simp only [parseMembersMW] at h
      by_cases hc : c = '"'
      · exact ⟨r, by rw [hc]⟩
      · rw [if_neg hc] at h
        exact absurd h (by simp)

theorem skipJsonMembers_shape {f : Nat} {l : List Char} {x : List Char}
    (h : skipJsonMembers f l = some x) : ∃ ys, l = '"' :: ys := by
  cases f with
  | zero => simp [skipJsonMembers] at h
  | succ f =>
    match l with
    | [] => simp [skipJsonMembers] at h
    | c :: r =>
      simp only [skipJsonMembers] at h
      by_cases hc : c = '"'
      · exact ⟨r, by rw [hc]⟩
      · rw [if_neg hc] at h
        exact absurd h (by simp)

theorem contMW_skipWs_ne_nil {f : Nat} {r : List Char}
    {s q : Option (List Char)}
    {x : Option (List Char) × Option (List Char) × List Char}
    (h : contMW f r s q = some x) : skipWs r ≠ [] := by
  cases f with
  | zero => simp [contMW] at h
  | succ f =>
    intro hnil
    simp only [contMW, hnil] at h
    exact absurd h (by simp)

theorem dropWhile_append_cons {p : Char → Bool} {l : List Char} {x : Char}
    {rs : List Char} (e : List Char) (h : l.dropWhile p = x :: rs) :
    (l ++ e).dropWhile p = x :: (rs ++ e) ∧
      (l ++ e).takeWhile p = l.takeWhile p := by
  induction l with
  | nil => simp [List.dropWhile] at h
  | cons c l' ih =>
    simp only [List.cons_append, List.dropWhile_cons, List.takeWhile_cons] at h ⊢
    by_cases hc : p c = true
    · rw [if_pos hc] at h
      have := ih h
      rw [if_pos hc, if_pos hc]
      exact ⟨this.1, by rw [if_pos hc, this.2]⟩
    · rw [if_neg hc] at h
      simp only [List.cons.injEq] at h
      rw [if_neg hc, if_neg hc, if_neg hc]
      exact ⟨by simp [h.1, ← h.2], rfl⟩

theorem dropWhile_append_nil {p : Char → Bool} {l : List Char}
    (e : List Char) (h : l.dropWhile p = []) :
    (l ++ e).dropWhile p = e.dropWhile p := by
  induction l with
  | nil => rfl
  | cons c l' ih =>
    simp only [List.cons_append, List.dropWhile_cons] at h ⊢
    by_cases hc : p c = true
    · rw [if_pos hc] at h
      rw [if_pos hc]
      exact ih h
    · rw [if_neg hc] at h
      exact absurd h (by simp)

theorem rawStringGo_cons (esc : Bool) (c : Char) (r : List Char) :
    rawStringGo esc (c :: r) =
      if esc then
        match rawStringGo false r with
        | some (raw, rest) => some (c :: raw, rest)
        | none => none
      else if c = '"' then some ([], r)
      else if c = '\\' then
        match rawStringGo true r with
        | some (raw, rest) => some (c :: raw, rest)
        | none => none
      else
        match rawStringGo false r with
        | some (raw, rest) => some (c :: raw, rest)
        | none => none := rfl

theorem rawGo_ext : ∀ {l : List Char} (esc : Bool) {raw rest : List Char}
    (e : List Char), rawStringGo esc l = some (raw, rest) →
    rawStringGo esc (l ++ e) = some (raw, rest ++ e) := by
  intro l
  induction l with
  | nil => intro esc raw rest e h; simp [rawStringGo] at h
  | cons c r ih =>
    intro esc raw rest e h
    rw [rawStringGo_cons] at h
    rw [show (c :: r) ++ e = c :: (r ++ e) from rfl, rawStringGo_cons]
    by_cases hesc : esc = true
    · rw [if_pos hesc] at h ⊢
      rcases hx : rawStringGo false r with _ | ⟨raw2, rest2⟩
      · rw [hx] at h; exact absurd h (by simp)
      · rw [hx] at h
        simp only [Option.some.injEq, Prod.mk.injEq] at h
        rw [ih false e hx]
        simp [← h.1, ← h.2]
    · rw [if_neg hesc] at h ⊢
      by_cases hc : c = '"'
      · rw [if_pos hc] at h ⊢
        simp only [Option.some.injEq, Prod.mk.injEq] at h
        simp [← h.1, ← h.2]
      · rw [if_neg hc] at h ⊢
        by_cases hb : c = '\\'
        · rw [if_pos hb] at h ⊢
          rcases hx : rawStringGo true r with _ | ⟨raw2, rest2⟩
          · rw [hx] at h; exact absurd h (by simp)
          · rw [hx] at h
            simp only [Option.some.injEq, Prod.mk.injEq] at h
            rw [ih true e hx]
            simp [← h.1, ← h.2]
        · rw [if_neg hb] at h ⊢
          rcases hx : rawStringGo false r with _ | ⟨raw2, rest2⟩
          · rw [hx] at h; exact absurd h (by simp)
          · rw [hx] at h
            simp only [Option.some.injEq, Prod.mk.injEq] at h
            rw [ih false e hx]
            simp [← h.1, ← h.2]

theorem raw_ext (l raw rest e : List Char)
    (h : rawStringBody l = some (raw, rest)) :
    rawStringBody (l ++ e) = some (raw, rest ++ e) :=
  rawGo_ext false e h

theorem psb_ext {l s r : List Char} (e : List Char)
    (h : parseStringBody l = some (s, r)) :
    parseStringBody (l ++ e) = some (s, r ++ e) := by
  simp only [parseStringBody] at h ⊢
  rcases hx : rawStringBody l with _ | ⟨raw, rest⟩
  · rw [hx] at h; exact absurd h (by simp)
  · rw [hx] at h
    rw [raw_ext l raw rest e hx]
    dsimp only at h ⊢
    rcases hd : decodeEscapes raw with _ | s2
    · rw [hd] at h; exact absurd h (by simp)
    · rw [hd] at h
      simp only [Option.some.injEq, Prod.mk.injEq] at h
      simp [h.1, h.2]

theorem expectLit_ext {lit l r : List Char} (e : List Char)
    (h : expectLit lit l = some r) :
    expectLit lit (l ++ e) = some (r ++ e) := by
  induction lit generalizing l with
  | nil =>
    simp only [expectLit, Option.some.injEq] at h
    simp [expectLit, h]
  | cons c cs ih =>
    match l with
    | [] => simp [expectLit] at h
    | x :: r0 =>
      simp only [expectLit] at h
      rw [show (x :: r0) ++ e = x :: (r0 ++ e) from rfl]
      simp only [expectLit]
      by_cases hx : x = c
      · rw [if_pos hx] at h ⊢
        exact ih h
      · rw [if_neg hx] at h
        exact absurd h (by simp)

theorem numSign_append (s : Char) (r1 e : List Char) :
    numSign ((s :: r1) ++ e) = numSign (s :: r1) ++ e := by
  rw [show (s :: r1) ++ e = s :: (r1 ++ e) from rfl]
  simp only [numSign]
  by_cases hs : (s = '+' || s = '-') = true
  · rw [if_pos hs, if_pos hs]
  · rw [if_neg hs, if_neg hs]
    rfl

theorem numDigits1_ext {l : List Char} {x : Char} {rs : List Char}
    (e : List Char) (h : numDigits1 l = some (x :: rs)) :
    numDigits1 (l ++ e) = some (x :: (rs ++ e)) := by
  match l with
  | [] => simp [numDigits1] at h
  | d :: r2 =>
    simp only [numDigits1] at h
    rw [show (d :: r2) ++ e = d :: (r2 ++ e) from rfl]
    simp only [numDigits1]
    by_cases hd : d.isDigit = true
    · rw [if_pos hd] at h
      rw [if_pos hd]
      simp only [Option.some.injEq] at h
      rw [(dropWhile_append_cons e h).1]
    · rw [if_neg hd] at h
      exact absurd h (by simp)

theorem numExpTail_ext {l : List Char} {x : Char} {rs : List Char}
    (e : List Char) (h : numExpTail l = some (x :: rs)) :
    numExpTail (l ++ e) = some (x :: (rs ++ e)) := by
  match l with
  | [] => simp [numExpTail] at h
  | c :: r =>
    simp only [numExpTail] at h
    rw [show (c :: r) ++ e = c :: (r ++ e) from rfl]
    simp only [numExpTail]
    by_cases hc : (c = 'e' || c = 'E') = true
    · rw [if_pos hc] at h
      rw [if_pos hc]
      match r with
      | [] => simp [numSign, numDigits1] at h
      | s :: r1 =>
        rw [numSign_append]
        match hsn : numSign (s :: r1) with
        | [] => rw [hsn] at h; simp [numDigits1] at h
        | y :: ys =>
          rw [hsn] at h
          exact numDigits1_ext e h
    · rw [if_neg hc] at h
      rw [if_neg hc]
      simp only [Option.some.injEq, List.cons.injEq] at h ⊢
      exact ⟨h.1, by rw [h.2]⟩

theorem numFracDigits_ext {l : List Char} {x : Char} {rs : List Char}
    (e : List Char) (h : numFracDigits l = some (x :: rs)) :
    numFracDigits (l ++ e) = some (x :: (rs ++ e)) := by
  match l with
  | [] => simp [numFracDigits] at h
  | d :: r2 =>
    simp only [numFracDigits] at h
    rw [show (d :: r2) ++ e = d :: (r2 ++ e) from rfl]
    simp only [numFracDigits]
    by_cases hd : d.isDigit = true
    · rw [if_pos hd] at h
      rw [if_pos hd]
      match hdw : r2.dropWhile Char.isDigit with
      | [] =>
        rw [hdw] at h
        simp [numExpTail] at h
      | y :: ys =>
        rw [hdw] at h
        rw [(dropWhile_append_cons e hdw).1]
        exact numExpTail_ext e h
    · rw [if_neg hd] at h
      exact absurd h (by simp)

theorem numFracTail_ext {l : List Char} {x : Char} {rs : List Char}
    (e : List Char) (h : numFracTail l = some (x :: rs)) :
    numFracTail (l ++ e) = some (x :: (rs ++ e)) := by
  match l with
  | [] => simp [numFracTail, numExpTail] at h
  | c :: r =>
    simp only [numFracTail] at h
    rw [show (c :: r) ++ e = c :: (r ++ e) from rfl]
    simp only [numFracTail]
    by_cases hc : c = '.'
    · rw [if_pos hc] at h
      rw [if_pos hc]
      exact numFracDigits_ext e h
    · rw [if_neg hc] at h
      rw [if_neg hc]
      have := numExpTail_ext (l := c :: r) e h
      exact this

theorem numZeroTail_ext {l : List Char} {x : Char} {rs : List Char}
    (e : List Char) (h : numZeroTail l = some (x :: rs)) :
    numZeroTail (l ++ e) = some (x :: (rs ++ e)) := by
  match l with
  | [] => simp [numZeroTail, numFracTail, numExpTail] at h
  | d :: r0 =>
    simp only [numZeroTail] at h
    rw [show (d :: r0) ++ e = d :: (r0 ++ e) from rfl]
    simp only [numZeroTail]
    by_cases hd : d.isDigit = true
    · rw [if_pos hd] at h
      exact absurd h (by simp)
    · rw [if_neg hd] at h
      rw [if_neg hd]
      have := numFracTail_ext (l := d :: r0) e h
      exact this

theorem numUnsigned_ext {l : List Char} {x : Char} {rs : List Char}
    (e : List Char) (h : numUnsigned l = some (x :: rs)) :
    numUnsigned (l ++ e) = some (x :: (rs ++ e)) := by
  match l with
  | [] => simp [numUnsigned] at h
  | c :: r =>
    simp only [numUnsigned] at h
    rw [show (c :: r) ++ e = c :: (r ++ e) from rfl]
    simp only [numUnsigned]
    by_cases h0 : c = '0'
    · rw [if_pos h0] at h
      rw [if_pos h0]
      exact numZeroTail_ext e h
    · rw [if_neg h0] at h
      rw [if_neg h0]
      by_cases hd : c.isDigit = true
      · rw [if_pos hd] at h
        rw [if_pos hd]
        match hdw : r.dropWhile Char.isDigit with
        | [] =>
          rw [hdw] at h
          simp [numFracTail, numExpTail] at h
        | y :: ys =>
          rw [hdw] at h
          rw [(dropWhile_append_cons e hdw).1]
          exact numFracTail_ext e h
      · rw [if_neg hd] at h
        exact absurd h (by simp)

theorem pns_ext {l : List Char} {x : Char} {rs : List Char}
    (e : List Char) (h : parseNumberSkip l = some (x :: rs)) :
    parseNumberSkip (l ++ e) = some (x :: (rs ++ e)) := by
  match l with
  | [] => simp [parseNumberSkip] at h
  | c :: r =>
    simp only [parseNumberSkip] at h
    rw [show (c :: r) ++ e = c :: (r ++ e) from rfl]
    simp only [parseNumberSkip]
    by_cases hm : c = '-'
    · rw [if_pos hm] at h
      rw [if_pos hm]
      exact numUnsigned_ext e h
    · rw [if_neg hm] at h
      rw [if_neg hm]
      have := numUnsigned_ext (l := c :: r) e h
      exact this

theorem expectChar_cons_eq (c : Char) (r : List Char) :
    expectChar c (c :: r) = some r := by
  simp [expectChar]

theorem skipJsonValue_succ_cons (f : Nat) (c : Char) (r : List Char) :
    skipJsonValue (f + 1) (c :: r) =
      (if c = '"' then
        match parseStringBody r with
        | some (_, rest) => some rest
        | none => none
      else if c = lb then
        match expectChar rb (skipWs r) with
        | some r2 => some r2
        | none => skipJsonMembers f (skipWs r)
      else if c = '[' then
        match expectChar ']' (skipWs r) with
        | some r2 => some r2
        | none => skipJsonElems f (skipWs r)
      else if c = 't' then expectLit (("rue").data) r
      else if c = 'f' then expectLit (("alse").data) r
      else if c = 'n' then expectLit (("ull").data) r
      else if c = '-' || c.isDigit then parseNumberSkip (c :: r)
      else none) := rfl

theorem skipJsonMembers_succ_cons (f : Nat) (c : Char) (r : List Char) :
    skipJsonMembers (f + 1) (c :: r) =
      (if c = '"' then
        match parseStringBody r with
        | some (_, r1) =>
          match expectChar ':' (skipWs r1) with
          | some r2 =>
            match skipJsonValue f (skipWs r2) with
            | some r3 =>
              match skipWs r3 with
              | x :: r4 =>
                if x = ',' then skipJsonMembers f (skipWs r4)
                else if x = rb then some r4 else none
              | [] => none
            | none => none
          | none => none
        | none => none
      else none) := rfl

theorem skipJsonElems_succ (f : Nat) (l : List Char) :
    skipJsonElems (f + 1) l =
      (match skipJsonValue f l with
      | some r =>
        match skipWs r with
        | x :: r2 =>
          if x = ',' then skipJsonElems f (skipWs r2)
          else if x = ']' then some r2 else none
        | [] => none
      | none => none) := rfl

theorem parseMembersMW_succ_cons (f : Nat) (c : Char) (r : List Char)
    (s q : Option (List Char)) :
    parseMembersMW (f + 1) (c :: r) s q =
      (if c = '"' then
        match parseStringBody r with
        | some (key, r1) =>
          match expectChar ':' (skipWs r1) with
          | some r2 =>
            if key = ("summary").data then
              match s with
              | some _ => none
              | none =>
                match expectChar '"' (skipWs r2) with
                | some r3 =>
                  match parseStringBody r3 with
                  | some (v, r4) => contMW f r4 (some v) q
                  | none => none
                | none => none
            else if key = ("queue").data then
              match q with
              | some _ => none
              | none =>
                match expectChar '"' (skipWs r2) with
                | some r3 =>
                  match parseStringBody r3 with
                  | some (v, r4) => contMW f r4 s (some v)
                  | none => none
                | none => none
            else
              match skipJsonValue f (skipWs r2) with
              | some r4 => contMW f r4 s q
              | none => none
          | none => none
        | none => none
      else none) := rfl

theorem contMW_succ (f : Nat) (r : List Char) (s q : Option (List Char)) :
    contMW (f + 1) r s q =
      (match skipWs r with
      | x :: r2 =>
        if x = ',' then parseMembersMW f (skipWs r2) s q
        else if x = rb then some (s, q, r2) else none
      | [] => none) := rfl

theorem skipJsonValue_succ_nil (f : Nat) : skipJsonValue (f + 1) [] = none := rfl

theorem skipJsonMembers_succ_nil (f : Nat) :
    skipJsonMembers (f + 1) [] = none := rfl

theorem parseMembersMW_succ_nil (f : Nat) (s q : Option (List Char)) :
    parseMembersMW (f + 1) [] s q = none := rfl

theorem skipWs_cons_append {z : Char} {zs : List Char} {x : Char}
    {r : List Char} (e : List Char) (h : skipWs (z :: zs) = x :: r) :
    skipWs (z :: (zs ++ e)) = x :: (r ++ e) := by
  have := skipWs_append_cons e h
  rwa [show (z :: zs) ++ e = z :: (zs ++ e) from rfl] at this

theorem json_extmono : ∀ f : Nat,
    (∀ (g : Nat) (l : List Char) (x : Char) (rs e : List Char),
      skipJsonValue f l = some (x :: rs) → f ≤ g →
      skipJsonValue g (l ++ e) = some (x :: (rs ++ e))) ∧
    (∀ (g : Nat) (l r e : List Char),
      skipJsonMembers f l = some r → f ≤ g →
      skipJsonMembers g (l ++ e) = some (r ++ e)) ∧
    (∀ (g : Nat) (l r e : List Char),
      skipJsonElems f l = some r → f ≤ g →
      skipJsonElems g (l ++ e) = some (r ++ e)) ∧
    (∀ (g : Nat) (l : List Char) (s q : Option (List Char))
      (a b : Option (List Char)) (rest e : List Char),
      parseMembersMW f l s q = some (a, b, rest) → f ≤ g →
      parseMembersMW g (l ++ e) s q = some (a, b, rest ++ e)) ∧
    (∀ (g : Nat) (r : List Char) (s q : Option (List Char))
      (a b : Option (List Char)) (rest e : List Char),
      contMW f r s q = some (a, b, rest) → f ≤ g →
      contMW g (r ++ e) s q = some (a, b, rest ++ e)) := by
  intro f
  induction f with
  | zero =>
    refine ⟨?_, ?_, ?_, ?_, ?_⟩
    · intro g l x rs e h hg; simp [skipJsonValue] at h
    · intro g l r e h hg; simp [skipJsonMembers] at h
    · intro g l r e h hg; simp [skipJsonElems] at h
    · intro g l s q a b rest e h hg; simp [parseMembersMW] at h
    · intro g r s q a b rest e h hg; simp [contMW] at h
  | succ f ih =>
    obtain ⟨ihV, ihM, ihE, ihP, ihC⟩ := ih
    refine ⟨?_, ?_, ?_, ?_, ?_⟩
    -- skipJsonValue
    · intro g l x rs e h hfg
      rcases g with _ | g'
      · omega
      have hfg' : f ≤ g' := Nat.le_of_succ_le_succ hfg
      rcases l with _ | ⟨c, r⟩
      · rw [skipJsonValue_succ_nil] at h; exact absurd h (by simp)
      rw [skipJsonValue_succ_cons] at h
      rw [show (c :: r) ++ e = c :: (r ++ e) from rfl, skipJsonValue_succ_cons]
      by_cases h1 : c = '"'
      · rw [if_pos h1] at h ⊢
        rcases hps : parseStringBody r with _ | ⟨s0, rest0⟩
        · rw [hps] at h; exact absurd h (by simp)
        · rw [hps] at h
          dsimp only at h
          rw [psb_ext e hps]
          dsimp only
          simp only [Option.some.injEq] at h ⊢
          rw [h]
          exact List.cons_append x rs e
      · rw [if_neg h1] at h ⊢
        by_cases h2 : c = lb
        · rw [if_pos h2] at h ⊢
          rcases hec : expectChar rb (skipWs r) with _ | r2
          · rw [hec] at h
            dsimp only at h
            obtain ⟨ys, hys⟩ := skipJsonMembers_shape h
            have hws : skipWs (r ++ e) = '"' :: (ys ++ e) :=
              skipWs_append_cons e hys
            rw [hws, expectChar_cons_ne _ (show ('"' : Char) ≠ rb by decide)]
            dsimp only
            have hmem := ihM g' (skipWs r) (x :: rs) e h hfg'
            rw [hys] at hmem
            exact hmem
          · rw [hec] at h
            dsimp only at h
            simp only [Option.some.injEq] at h
            have hr : skipWs r = rb :: r2 := expectChar_some hec
            rw [skipWs_append_cons e hr, expectChar_cons_eq]
            dsimp only
            rw [h]
            rw [List.cons_append]
        · rw [if_neg h2] at h ⊢
          by_cases h3 : c = '['
          · rw [if_pos h3] at h ⊢
            rcases hec : expectChar ']' (skipWs r) with _ | r2
            · rw [hec] at h
              dsimp only at h
              rcases hws0 : skipWs r with _ | ⟨u, us⟩
              · rw [hws0, skipJsonElems_nil] at h; exact absurd h (by simp)
              rw [hws0] at hec
              have hu : u ≠ ']' := by
                intro heq
                rw [heq, expectChar_cons_eq] at hec
                exact absurd hec (by simp)
              rw [skipWs_append_cons e hws0, expectChar_cons_ne _ hu]
              dsimp only
              have helems := ihE g' (skipWs r) (x :: rs) e h hfg'
              rw [hws0] at helems
              exact helems
            · rw [hec] at h
              dsimp only at h
              simp only [Option.some.injEq] at h
              have hr : skipWs r = ']' :: r2 := expectChar_some hec
              rw [skipWs_append_cons e hr, expectChar_cons_eq]
              dsimp only
              rw [h]
              rw [List.cons_append]
          · rw [if_neg h3] at h ⊢
            by_cases h4 : c = 't'
            · rw [if_pos h4] at h ⊢
              exact expectLit_ext e h
            · rw [if_neg h4] at h ⊢
              by_cases h5 : c = 'f'
              · rw [if_pos h5] at h ⊢
                exact expectLit_ext e h
              · rw [if_neg h5] at h ⊢
                by_cases h6 : c = 'n'
                · rw [if_pos h6] at h ⊢
                  exact expectLit_ext e h
                · rw [if_neg h6] at h ⊢
                  by_cases h7 : (c = '-' || c.isDigit) = true
                  · rw [if_pos h7] at h ⊢
                    exact pns_ext e h
                  · rw [if_neg h7] at h
                    exact absurd h (by simp)
    -- skipJsonMembers
    · intro g l r0 e h hfg
      rcases g with _ | g'
      · omega
      have hfg' : f ≤ g' := Nat.le_of_succ_le_succ hfg
      rcases l with _ | ⟨c, r⟩
      · rw [skipJsonMembers_succ_nil] at h; exact absurd h (by simp)
      rw [skipJsonMembers_succ_cons] at h
      rw [show (c :: r) ++ e = c :: (r ++ e) from rfl, skipJsonMembers_succ_cons]
      by_cases h1 : c = '"'
      · rw [if_pos h1] at h ⊢
        rcases hps : parseStringBody r with _ | ⟨k0, r1⟩
        · rw [hps] at h; exact absurd h (by simp)
        rw [hps] at h
        dsimp only at h
        rw [psb_ext e hps]
        dsimp only
        rcases hec : expectChar ':' (skipWs r1) with _ | r2
        · rw [hec] at h; exact absurd h (by simp)
        rw [hec] at h
        dsimp only at h
        have hc1 : skipWs r1 = ':' :: r2 := expectChar_some hec
        rw [skipWs_append_cons e hc1, expectChar_cons_eq]
        dsimp only
        rcases hv : skipJsonValue f (skipWs r2) with _ | r3
        · rw [hv] at h; exact absurd h (by simp)
        rw [hv] at h
        dsimp only at h
        rcases hw3 : skipWs r3 with _ | ⟨x4, r4⟩
        · rw [hw3] at h; exact absurd h (by simp)
        rw [hw3] at h
        dsimp only at h
        rcases r3 with _ | ⟨z, zs⟩
        · rw [show skipWs ([] : List Char) = [] from rfl] at hw3
          exact absurd hw3 (by simp)
        rcases hw2 : skipWs r2 with _ | ⟨u, us⟩
        · rw [hw2, skipJsonValue_nil] at hv; exact absurd hv (by simp)
        have hv2 := ihV g' (skipWs r2) z zs e hv hfg'
        rw [hw2] at hv2
        rw [show (u :: us) ++ e = u :: (us ++ e) from rfl] at hv2
        rw [skipWs_append_cons e hw2, hv2]
        dsimp only
        rw [skipWs_cons_append e hw3]
        dsimp only
        by_cases hx4 : x4 = ','
        · rw [if_pos hx4] at h ⊢
          obtain ⟨ys, hys⟩ := skipJsonMembers_shape h
          have hmem := ihM g' (skipWs r4) r0 e h hfg'
          rw [hys] at hmem
          rw [skipWs_append_cons e hys]
          exact hmem
        · rw [if_neg hx4] at h ⊢
          by_cases hxr : x4 = rb
          · rw [if_pos hxr] at h ⊢
            simp only [Option.some.injEq] at h ⊢
            rw [h]
          · rw [if_neg hxr] at h
            exact absurd h (by simp)
      · rw [if_neg h1] at h
        exact absurd h (by simp)
    -- skipJsonElems
    · intro g l r0 e h hfg
      rcases g with _ | g'
      · omega
      have hfg' : f ≤ g' := Nat.le_of_succ_le_succ hfg
      rw [skipJsonElems_succ] at h
      rw [skipJsonElems_succ]
      rcases hv : skipJsonValue f l with _ | r3
      · rw [hv] at h; exact absurd h (by simp)
      rw [hv] at h
      dsimp only at h
      rcases hw3 : skipWs r3 with _ | ⟨x4, r4⟩
      · rw [hw3] at h; exact absurd h (by simp)
      rw [hw3] at h
      dsimp only at h
      rcases r3 with _ | ⟨z, zs⟩
      · rw [show skipWs ([] : List Char) = [] from rfl] at hw3
        exact absurd hw3 (by simp)
      have hv2 := ihV g' l z zs e hv hfg'
      rw [hv2]
      dsimp only
      rw [skipWs_cons_append e hw3]
      dsimp only
      by_cases hx4 : x4 = ','
      · rw [if_pos hx4] at h ⊢
        rcases hw2 : skipWs r4 with _ | ⟨u, us⟩
        · rw [hw2, skipJsonElems_nil] at h; exact absurd h (by simp)
        have helems := ihE g' (skipWs r4) r0 e h hfg'
        rw [hw2] at helems
        rw [skipWs_append_cons e hw2]
        exact helems
      · rw [if_neg hx4] at h ⊢
        by_cases hxr : x4 = ']'
        · rw [if_pos hxr] at h ⊢
          simp only [Option.some.injEq] at h ⊢
          rw [h]
        · rw [if_neg hxr] at h
          exact absurd h (by simp)
    -- parseMembersMW
    · intro g l s q a b rest e h hfg
      rcases g with _ | g'
      · omega
      have hfg' : f ≤ g' := Nat.le_of_succ_le_succ hfg
      rcases l with _ | ⟨c, r⟩
      · rw [parseMembersMW_succ_nil] at h; exact absurd h (by simp)
      rw [parseMembersMW_succ_cons] at h
      rw [show (c :: r) ++ e = c :: (r ++ e) from rfl, parseMembersMW_succ_cons]
      by_cases h1 : c = '"'
      · rw [if_pos h1] at h ⊢
        rcases hps : parseStringBody r with _ | ⟨k0, r1⟩
        · rw [hps] at h; exact absurd h (by simp)
        rw [hps] at h
        dsimp only at h
        rw [psb_ext e hps]
        dsimp only
        rcases hec : expectChar ':' (skipWs r1) with _ | r2
        · rw [hec] at h; exact absurd h (by simp)
        rw [hec] at h
        dsimp only at h
        have hc1 : skipWs r1 = ':' :: r2 := expectChar_some hec
        rw [skipWs_append_cons e hc1, expectChar_cons_eq]
        dsimp only
        by_cases hks : k0 = ("summary").data
        · rw [if_pos hks] at h ⊢
          rcases s with _ | sv
          · dsimp only at h ⊢
            rcases he2 : expectChar '"' (skipWs r2) with _ | r3
            · rw [he2] at h; exact absurd h (by simp)
            rw [he2] at h
            dsimp only at h
            have hq2 : skipWs r2 = '"' :: r3 := expectChar_some he2
            rw [skipWs_append_cons e hq2, expectChar_cons_eq]
            dsimp only
            rcases hps2 : parseStringBody r3 with _ | ⟨v0, r4⟩
            · rw [hps2] at h; exact absurd h (by simp)
            rw [hps2] at h
            dsimp only at h
            rw [psb_ext e hps2]
            dsimp only
            exact ihC g' r4 (some v0) q a b rest e h hfg'
          · dsimp only at h
            exact absurd h (by simp)
        · rw [if_neg hks] at h ⊢
          by_cases hkq : k0 = ("queue").data
          · rw [if_pos hkq] at h ⊢
            rcases q with _ | qv
            · dsimp only at h ⊢
              rcases he2 : expectChar '"' (skipWs r2) with _ | r3
              · rw [he2] at h; exact absurd h (by simp)
              rw [he2] at h
              dsimp only at h
              have hq2 : skipWs r2 = '"' :: r3 := expectChar_some he2
              rw [skipWs_append_cons e hq2, expectChar_cons_eq]
              dsimp only
              rcases hps2 : parseStringBody r3 with _ | ⟨v0, r4⟩
              · rw [hps2] at h; exact absurd h (by simp)
              rw [hps2] at h
              dsimp only at h
              rw [psb_ext e hps2]
              dsimp only
              exact ihC g' r4 s (some v0) a b rest e h hfg'
            · dsimp only at h
              exact absurd h (by simp)
          · rw [if_neg hkq] at h ⊢
            rcases hv : skipJsonValue f (skipWs r2) with _ | r4
            · rw [hv] at h; exact absurd h (by simp)
            rw [hv] at h
            dsimp only at h
            rcases r4 with _ | ⟨z, zs⟩
            · have := contMW_skipWs_ne_nil h
              exact absurd rfl this
            rcases hw2 : skipWs r2 with _ | ⟨u, us⟩
            · rw [hw2, skipJsonValue_nil] at hv; exact absurd hv (by simp)
            have hv2 := ihV g' (skipWs r2) z zs e hv hfg'
            rw [hw2] at hv2
            rw [show (u :: us) ++ e = u :: (us ++ e) from rfl] at hv2
            rw [skipWs_append_cons e hw2, hv2]
            dsimp only
            have := ihC g' (z :: zs) s q a b rest e h hfg'
            rw [show (z :: zs) ++ e = z :: (zs ++ e) from rfl] at this
            exact this
      · rw [if_neg h1] at h
        exact absurd h (by simp)
    -- contMW
    · intro g r s q a b rest e h hfg
      rcases g with _ | g'
      · omega
      have hfg' : f ≤ g' := Nat.le_of_succ_le_succ hfg
      rw [contMW_succ] at h
      rw [contMW_succ]
      rcases hw : skipWs r with _ | ⟨x, r2⟩
      · rw [hw] at h; exact absurd h (by simp)
      rw [hw] at h
      dsimp only at h
      rw [skipWs_append_cons e hw]
      dsimp only
      by_cases hx : x = ','
      · rw [if_pos hx] at h ⊢
        obtain ⟨ys, hys⟩ := parseMembersMW_shape h
        have hpm := ihP g' (skipWs r2) s q a b rest e h hfg'
        rw [hys] at hpm
        rw [skipWs_append_cons e hys]
        exact hpm
      · rw [if_neg hx] at h ⊢
        by_cases hxr : x = rb
        · rw [if_pos hxr] at h ⊢
          simp only [Option.some.injEq, Prod.mk.injEq] at h ⊢
          exact ⟨h.1, h.2.1, by rw [h.2.2]⟩
        · rw [if_neg hxr] at h
          exact absurd h (by simp)

theorem decode_truncate {a bb : List Char} {w : MyWarning}
    (hB : decodeMyWarning (a ++ ('#' :: ('s' :: bb))) = some w) :
    decodeMyWarning a = none := by
  rcases hw : decodeMyWarning a with _ | w0
  · rfl
  · exfalso
    simp only [decodeMyWarning] at hw
    rcases h1 : expectChar lb (skipWs a) with _ | r
    · rw [h1] at hw; exact absurd hw (by simp)
    rw [h1] at hw
    dsimp only at hw
    have hla : skipWs a = lb :: r := expectChar_some h1
    rcases h2 : expectChar rb (skipWs r) with _ | r2
    swap
    · rw [h2] at hw
      dsimp only at hw
      exact absurd hw (by simp)
    rw [h2] at hw
    dsimp only at hw
    rcases h3 : parseMembersMW (2 * a.length + 4) (skipWs r) none none
        with _ | ⟨os, oq, rest⟩
    · rw [h3] at hw; exact absurd hw (by simp)
    rw [h3] at hw
    rcases os with _ | s
    · rcases oq with _ | q <;> (dsimp only at hw; exact absurd hw (by simp))
    rcases oq with _ | q
    · dsimp only at hw; exact absurd hw (by simp)
    dsimp only at hw
    by_cases h4 : skipWs rest = []
    swap
    · rw [if_neg h4] at hw
      exact absurd hw (by simp)
    simp only [decodeMyWarning] at hB
    have hlaB : skipWs (a ++ ('#' :: ('s' :: bb)))
        = lb :: (r ++ ('#' :: ('s' :: bb))) :=
      skipWs_append_cons _ hla
    rw [hlaB, expectChar_cons_eq] at hB
    dsimp only at hB
    obtain ⟨ys, hys⟩ := parseMembersMW_shape h3
    have hwsr : skipWs (r ++ ('#' :: ('s' :: bb)))
        = '"' :: (ys ++ ('#' :: ('s' :: bb))) :=
      skipWs_append_cons _ hys
    rw [hwsr, expectChar_cons_ne _ (show ('"' : Char) ≠ rb by decide)] at hB
    dsimp only at hB
    have hfle : 2 * a.length + 4
        ≤ 2 * (a ++ ('#' :: ('s' :: bb))).length + 4 := by
      simp only [List.length_append]
      omega
    have hext := (json_extmono (2 * a.length + 4)).2.2.2.1
      (2 * (a ++ ('#' :: ('s' :: bb))).length + 4) (skipWs r) none none
      (some s) (some q) rest ('#' :: ('s' :: bb)) h3 hfle
    rw [hys] at hext
    rw [show ('"' :: ys) ++ ('#' :: ('s' :: bb))
        = '"' :: (ys ++ ('#' :: ('s' :: bb))) from rfl] at hext
    rw [hext] at hB
    dsimp only at hB
    have hrd : skipWs (rest ++ ('#' :: ('s' :: bb))) = '#' :: ('s' :: bb) := by
      rw [skipWs_append_nil _ h4]
      exact skipWs_not_ws _ (by decide)
    rw [hrd] at hB
    rw [if_neg (by simp)] at hB
    exact absurd hB (by simp)

/-- C9: the payload decoder commits to the first delimited run.  Part 1: when
the text before the `s#` marker contains no `s#` of its own and the remainder
`R` splits at its first `#s` as `a ++ "#s" ++ b` with `a` non-empty and
newline-free, the text handed to JSON decoding is exactly `a`, the run
strictly between the first `s#` and the earliest following `#s`.  Part 2:
consequently, for every JSON body `B` that itself contains the substring
`#s` and would decode validly in isolation, wrapping it as `s#B#s` truncates
the captured text at the interior `#s`, the decode of the truncated prefix
fails, and the classified message is absent. -/
theorem claim9 :
    (∀ (pre R a b : List Char), hasSH pre = false → splitHS R = some (a, b) →
      a ≠ [] → '\n' ∉ a →
      MyWarning.new_from_regex (pre ++ ('s' :: ('#' :: R))) =
        decodeMyWarning a) ∧
    (∀ (pre B post : List Char) (w : MyWarning), hasSH pre = false →
      '\n' ∉ B → hasHS B = true → decodeMyWarning B = some w →
      MyWarning.new_from_regex
          (pre ++ ('s' :: ('#' :: (B ++ ('#' :: ('s' :: post)))))) = none) := by
  constructor
  · intro pre R a b hpre hsp hane hnl
    have hinner : mwInnerGo [] R = some a := by
      have := mwInnerGo_eq [] hsp hnl (Or.inr hane)
      simpa using this
    have hcap := mwCaptures_skip hpre hinner
    simp only [MyWarning.new_from_regex, hcap]
  · intro pre B post w hpre hnl hhs hdec
    rcases hsp : splitHS B with _ | ⟨aB, bB⟩
    · simp [hasHS, hsp] at hhs
    have hBeq : B = aB ++ ('#' :: ('s' :: bB)) := splitHS_eq hsp
    have haneB : aB ≠ [] := by
      intro h0
      rw [h0] at hBeq
      rw [hBeq] at hdec
      rw [show ([] : List Char) ++ ('#' :: ('s' :: bB)) =
        '#' :: ('s' :: bB) from rfl] at hdec
      simp only [decodeMyWarning] at hdec
      rw [skipWs_not_ws _ (by decide)] at hdec
      rw [expectChar_cons_ne _ (by decide)] at hdec
      exact absurd hdec (by simp)
    have hnlaB : '\n' ∉ aB := by
      intro hmem
      apply hnl
      rw [hBeq]
      exact List.mem_append.mpr (Or.inl hmem)
    have hsp2 : splitHS (B ++ ('#' :: ('s' :: post))) =
        some (aB, bB ++ ('#' :: ('s' :: post))) :=
      splitHS_append_some _ hsp
    have hinner : mwInnerGo [] (B ++ ('#' :: ('s' :: post))) = some aB := by
      have := mwInnerGo_eq [] hsp2 hnlaB (Or.inr haneB)
      simpa using this
    have hcap := mwCaptures_skip hpre hinner
    have htr : decodeMyWarning aB = none := by
      rw [hBeq] at hdec
      exact decode_truncate hdec
    simp only [MyWarning.new_from_regex, hcap]
    exact htr

theorem claim9_witness :
    MyWarning.new_from_regex
        ([] ++ ('s' :: ('#' :: ('x' :: ('#' :: ('s' :: [])))))) =
      decodeMyWarning ('x' :: []) ∧
    MyWarning.new_from_regex
        ([] ++ ('s' :: ('#' ::
          ((("\x7b\"summary\":\"a#sb\",\"queue\":\"q\"\x7d").data)
            ++ ('#' :: ('s' :: [])))))) = none :=
  ⟨claim9.1 [] ('x' :: ('#' :: ('s' :: []))) ('x' :: []) [] rfl (by decide)
      (by decide) (by decide),
    claim9.2 [] (("\x7b\"summary\":\"a#sb\",\"queue\":\"q\"\x7d").data) []
      (MyWarning.mk (("a#sb").data) (("q").data)) rfl (by decide) (by decide)
      (by decide)⟩
